import Mathlib

/-!
# Verification of the rhizome-db persistent AVL tree and node-manager substrate

This development embeds the core of the `rhizome-trees` crate
(`src/tree/avl/mod.rs`, `src/node_ref/node_manager.rs`,
`src/node_ref/node_store.rs`, `src/tree/node_manager/*`) as Lean
definitions and proves or refutes the spec's claims about it.

Three embeddings are used:

* `AvlPure` — the AVL tree specialized to fully in-memory trees backed by
  `NullNodeStore` (the only configuration constructible in the repository:
  `Tree::new()` is provided only for `NullNodeStore`, and `NullNodeStore`
  fails every mutating store call, so references are always `Empty` or
  `InMemory(Resident)`).  On such trees `NodeRef::read`
  (per `NodeManager::read_inner`) is total and pure: `Empty ↦ None`,
  `MemNode(n) ↦ Some(n)`.  That reading is justified formally by the
  `AvlHeap` layer below.  `NodeRef`/`Option<Arc<Node>>` collapse to the
  `empty` constructor of a single inductive tree type.

* `NodeMgr` / `MemStore` — the `node_ref` module's `NodeManager`
  (`take_or_clone`, `save`) over explicit cell contents and the
  `MemNodeStore` state.  `Arc` uniqueness (`Arc::try_unwrap` success) is
  modelled by a boolean on the cell; the `Weak` cache is modelled by an
  `Option` holding the live node if the weak pointer is upgradable.

* `AvlHeap` — the AVL operations over an explicit append-only heap of
  node cells, keeping cell identity (sharing) observable.  Used for the
  persistence (frame) property and for the claim that in-memory trees
  never consult the `NodeStore`.
-/

deriving instance DecidableEq for Except

namespace AvlPure

/-- Rust's three-way `Ord::cmp` for a linear order (models `key.cmp(&self.key)`). -/
def cmp3 {K : Type} [LinearOrder K] (a b : K) : Ordering :=
  if a < b then .lt else if b < a then .gt else .eq

/-- The AVL `Node` (src/tree/avl/mod.rs, `struct Node`) specialized to in-memory
trees: a child `NodeRef` is either `Empty` or `InMemory(Resident(node))`, so a
child is represented by the tree itself with `empty` for `NodeRef::Empty`.
`memo` is the `hash: RwLock<Option<Vec<u8>>>` memoized-digest cell (bytes as
`List Nat`). -/
inductive Avl (K V : Type) : Type where
  | empty : Avl K V
  | node (key : K) (value : V) (left right : Avl K V) (height : Int)
      (memo : Option (List Nat)) : Avl K V
deriving DecidableEq

variable {K V : Type} [LinearOrder K]

/-- `Node::get_height` (avl/mod.rs:345): `None ↦ 0`, `Some(node) ↦ node.height`. -/
def getHeight : Avl K V → Int
  | .empty => 0
  | .node _ _ _ _ h _ => h

/-- The left child reference of a node (`self.left`); `empty` for `empty`. -/
def leftOf : Avl K V → Avl K V
  | .empty => .empty
  | .node _ _ l _ _ _ => l

/-- The right child reference of a node (`self.right`); `empty` for `empty`. -/
def rightOf : Avl K V → Avl K V
  | .empty => .empty
  | .node _ _ _ r _ _ => r

/-- Whether the tree/reference is `NodeRef::Empty`. -/
def isEmpty : Avl K V → Bool
  | .empty => true
  | .node _ _ _ _ _ _ => false

/-- `impl Clone for Node` (avl/mod.rs:433): copies key, value, children
references and height, and resets the memoized hash cell to `Default`
(`None`). -/
def cloneN : Avl K V → Avl K V
  | .empty => .empty
  | .node k v l r h _ => .node k v l r h none

/-- `Node::get` (avl/mod.rs:152): three-way comparison descent; reading an
`Empty` child yields `None`, hence the `empty` case. -/
def get : Avl K V → K → Option V
  | .empty, _ => none
  | .node k0 v0 l r _ _, q =>
    match cmp3 q k0 with
    | .lt => get l q
    | .eq => some v0
    | .gt => get r q

/-- `Node::update_height` (avl/mod.rs:256): sets
`self.height = max(lh, rh) + 1` and returns the balance factor `lh - rh`,
where `lh`/`rh` are the heights of the child references.  The `empty` case is
unreachable in the source (`update_height` is only invoked on nodes). -/
def updateHeight : Avl K V → Avl K V × Int
  | .empty => (.empty, 0)
  | .node k v l r _ m =>
    (.node k v l r (max (getHeight l) (getHeight r) + 1) m,
     getHeight l - getHeight r)

/-- `Node::balance_factor` (avl/mod.rs:263): `lh - rh` without mutating. -/
def balanceFactor : Avl K V → Int
  | .empty => 0
  | .node _ _ l r _ _ => getHeight l - getHeight r

/-- `Node::new_node` (avl/mod.rs:315): a leaf with height 1 and default
(empty) hash cell. -/
def newNode (k : K) (v : V) : Avl K V := .node k v .empty .empty 1 none

/-- `Node::rotate_right` (avl/mod.rs:269): `left` is unwrapped (the source
comment asserts it is `Some`); `new_right` is a clone of `self` with
`left := left.right`, re-heighted; `new_top` is a clone of `left` with
`right := new_right`, re-heighted.  Clones reset the memo cell.  The
non-matching case models the unreachable `unwrap` of an empty left child by
returning the node unchanged. -/
def rotateRight : Avl K V → Avl K V
  | .node k v (.node lk lv ll lr lh _) r h _ =>
    let newRight := (updateHeight (.node k v lr r h none)).1
    (updateHeight (.node lk lv ll newRight lh none)).1
  | t => t

/-- `Node::rotate_left` (avl/mod.rs:281), symmetric to `rotate_right`. -/
def rotateLeft : Avl K V → Avl K V
  | .node k v l (.node rk rv rl rr rh _) h _ =>
    let newLeft := (updateHeight (.node k v l rl h none)).1
    (updateHeight (.node rk rv newLeft rr rh none)).1
  | t => t

/-- `Node::rotate_right_left` (avl/mod.rs:293): `new_top = right.rotate_right()`,
`new_left = self.clone()` with `right := new_top.left`, re-heighted;
`new_top.left := new_left`, re-heighted. -/
def rotateRightLeft : Avl K V → Avl K V
  | .node k v l (.node rk rv rl rr rh rm) h _ =>
    match rotateRight (.node rk rv rl rr rh rm) with
    | .node tk tv tl tr th tm =>
      let newLeft := (updateHeight (.node k v l tl h none)).1
      (updateHeight (.node tk tv newLeft tr th tm)).1
    | .empty => .empty
  | t => t

/-- `Node::rotate_left_right` (avl/mod.rs:304), symmetric. -/
def rotateLeftRight : Avl K V → Avl K V
  | .node k v (.node lk lv ll lr lh lm) r h _ =>
    match rotateLeft (.node lk lv ll lr lh lm) with
    | .node tk tv tl tr th tm =>
      let newRight := (updateHeight (.node k v tr r h none)).1
      (updateHeight (.node tk tv tl newRight th tm)).1
    | .empty => .empty
  | t => t

/-- `Node::balance` (avl/mod.rs:236): recompute height (obtaining `bf`), then
rotate according to the balance factors. -/
def balance (n : Avl K V) : Avl K V :=
  let p := updateHeight n
  let s := p.1
  let bf := p.2
  if bf < -1 then
    if balanceFactor (rightOf s) > 0 then rotateRightLeft s else rotateLeft s
  else if bf > 1 then
    if balanceFactor (leftOf s) < 0 then rotateLeftRight s else rotateRight s
  else s

/-- `Node::insert` composed with `Node::do_insert` (avl/mod.rs:167 and :183):
Rust's `Node::insert` first obtains an owned node — taken as-is when `editable`
and the `Arc` is uniquely held, a clone (memo cell reset to `Default`)
otherwise; the `Err` fallback of `Arc::try_unwrap` also clones, differing from
the take only in the reset memo cell — and `do_insert` then descends by
comparison: an empty child becomes a fresh leaf, a non-empty child recurses
through `Node::insert`; equal keys overwrite the value in place; every case
then rebalances.  The clone-vs-take difference is exactly the memo field, so
the composition is one structural recursion; `doInsert` below is the entry
point used by `Tree::insert` on an already-cloned root.
The empty case folds in the caller's child dispatch
(`None => NodeRef::new(Node::new_node(key, value))`, avl/mod.rs:187 and :194):
inserting into an empty child reference produces a fresh leaf. -/
def insertN : Avl K V → K → V → Bool → Avl K V
  | .empty, k, v, _ => newNode k v
  | .node k0 v0 l r h m, k, v, ed =>
    let m' := if ed then m else none
    match cmp3 k k0 with
    | .lt => balance (.node k0 v0 (insertN l k v ed) r h m')
    | .eq => balance (.node k0 v l r h m')
    | .gt => balance (.node k0 v0 l (insertN r k v ed) h m')

/-- `Node::do_insert` (avl/mod.rs:183) on a node the caller already owns
(taken or cloned): the memo field is kept as-is, children go through
`Node::insert` (`insertN`).  The `empty` case is unreachable (`do_insert`
is only invoked on nodes). -/
def doInsert : Avl K V → K → V → Bool → Avl K V
  | .empty, _, _, _ => .empty
  | .node k0 v0 l r h m, k, v, ed =>
    match cmp3 k k0 with
    | .lt => balance (.node k0 v0 (insertN l k v ed) r h m)
    | .eq => balance (.node k0 v l r h m)
    | .gt => balance (.node k0 v0 l (insertN r k v ed) h m)

/-- `Node::delete` (avl/mod.rs:203): on `Less`/`Greater` rebuild from
`self.clone()` with the child replaced by the recursive deletion (an empty
result becomes `NodeRef::Empty`), then rebalance; on `Equal` return `None`
(the node *and its entire subtree* disappear).
The `empty` case (`none`) folds in the caller's child dispatch: the source
maps an `Empty` child reference to `NodeRef::Empty` directly, which coincides
with recursing and mapping the `None` result to `NodeRef::Empty`. -/
def deleteN : Avl K V → K → Option (Avl K V)
  | .empty, _ => none
  | .node k0 v0 l r h _, k =>
    match cmp3 k k0 with
    | .lt =>
      some (balance (.node k0 v0
        (match deleteN l k with
         | none => .empty
         | some l' => l') r h none))
    | .eq => none
    | .gt =>
      some (balance (.node k0 v0 l
        (match deleteN r k with
         | none => .empty
         | some r' => r') h none))

/-- `Tree::get` (avl/mod.rs:48): empty root yields `None`. -/
def treeGet (t : Avl K V) (q : K) : Option V := get t q

/-- `Tree::insert` (avl/mod.rs:60), the persistent insert: empty root becomes a
fresh leaf; otherwise `(*r).clone().do_insert(key, value, store, false)`. -/
def treeInsert (t : Avl K V) (k : K) (v : V) : Avl K V :=
  match t with
  | .empty => newNode k v
  | .node k0 v0 l r h m => doInsert (cloneN (.node k0 v0 l r h m)) k v false

/-- `Tree::insert_mut` (avl/mod.rs:89): empty root becomes a fresh leaf;
otherwise `Node::insert(r, key, value, store, true)`. -/
def treeInsertMut (t : Avl K V) (k : K) (v : V) : Avl K V :=
  match t with
  | .empty => newNode k v
  | .node k0 v0 l r h m => insertN (.node k0 v0 l r h m) k v true

/-- `Tree::delete` (avl/mod.rs:74): empty root stays empty; otherwise
`r.delete(key)`, with a `None` result becoming the empty root. -/
def treeDelete (t : Avl K V) (k : K) : Avl K V :=
  match t with
  | .empty => .empty
  | .node k0 v0 l r h m =>
    match deleteN (.node k0 v0 l r h m) k with
    | none => .empty
    | some n => n

/-- `Tree::balance_factor`/`Tree::balanced` (avl/mod.rs:100): the *root's*
balance factor lies in `-1..=1`. -/
def treeBalanced (t : Avl K V) : Bool :=
  decide (-1 ≤ balanceFactor t) && decide (balanceFactor t ≤ 1)

/-- The spec's balance-and-height invariant at every node:
`height = 1 + max(h(left), h(right))` (empty height 0) and
`|h(left) − h(right)| ≤ 1`. -/
def wellFormed : Avl K V → Bool
  | .empty => true
  | .node _ _ l r h _ =>
    wellFormed l && wellFormed r &&
    decide (h = 1 + max (getHeight l) (getHeight r)) &&
    decide (getHeight l - getHeight r ≤ 1) &&
    decide (getHeight r - getHeight l ≤ 1)

/-- Fold a list of persistent inserts, left to right. -/
def insertAll (t : Avl K V) : List (K × V) → Avl K V
  | [] => t
  | (k, v) :: rest => insertAll (treeInsert t k v) rest

/-- In-order key/value sequence of the tree. -/
def toList : Avl K V → List (K × V)
  | .empty => []
  | .node k v l r _ _ => toList l ++ (k, v) :: toList r

/-- All keys in the tree satisfy `p`. -/
def forAllKeys (p : K → Bool) : Avl K V → Bool
  | .empty => true
  | .node k _ l r _ _ => p k && forAllKeys p l && forAllKeys p r

/-- The binary-search-tree ordering invariant (spec §3: in-order traversal
yields keys in strict ascending order). -/
def isBST : Avl K V → Bool
  | .empty => true
  | .node k _ l r _ _ =>
    forAllKeys (fun x => decide (x < k)) l &&
    forAllKeys (fun x => decide (k < x)) r &&
    isBST l && isBST r

/-- `Node::merkle_hash` (avl/mod.rs:377) for one abstract hash algorithm:
`f` is finalization on the absorbed byte stream (`digest.new()` forks a fresh
sub-hasher of the same algorithm), `kB`/`vB` are the `Hashable` byte encodings
of keys and values.  A memoized digest is fed to the caller's sink unchanged;
otherwise the sub-hasher absorbs, in order, the key bytes, the value bytes,
the left child's recursive digest (recursion on an empty child contributes
nothing, modelled by the `([], empty)` result), a `0` pad byte exactly when
the left child is empty and the right one is not, and the right child's
recursive digest; the finalized digest is memoized (in this pure rendering,
recursion returns the children with their memo cells filled) and returned as
the bytes fed to the caller's sink.  Bytes are modelled as `List Nat`. -/
def merkleHash (f : List Nat → List Nat) (kB : K → List Nat)
    (vB : V → List Nat) : Avl K V → List Nat × Avl K V
  | .empty => ([], .empty)
  | .node k v l r h m =>
    match m with
    | some d => (d, .node k v l r h (some d))
    | none =>
      let pl := merkleHash f kB vB l
      let pr := merkleHash f kB vB r
      let pad : List Nat :=
        match l, r with
        | .empty, .node _ _ _ _ _ _ => [0]
        | _, _ => []
      let d := f (kB k ++ vB v ++ pl.1 ++ pad ++ pr.1)
      (d, .node k v pl.2 pr.2 h (some d))

/-- The rebalance step exactly as claim C8 words it: first recompute the
node's height (`1 + max(h(left), h(right))`, empty height 0), then with
`bf = height(left) - height(right)` rotate right-left / left when `bf < -1`
(right-left only if the right child's balance factor is `> 0`), rotate
left-right / right when `bf > 1` (left-right only if the left child's balance
factor is `< 0`), and return the node without rotating when `-1 ≤ bf ≤ 1`. -/
def balanceSpec (n : Avl K V) : Avl K V :=
  let s : Avl K V :=
    match n with
    | .empty => .empty
    | .node k v l r _ m => .node k v l r (1 + max (getHeight l) (getHeight r)) m
  let bf := getHeight (leftOf n) - getHeight (rightOf n)
  if bf < -1 then
    if balanceFactor (rightOf s) > 0 then rotateRightLeft s else rotateLeft s
  else if bf > 1 then
    if balanceFactor (leftOf s) < 0 then rotateLeftRight s else rotateRight s
  else s

end AvlPure

namespace NodeMgr

variable {N : Type}

/-- `NodeRefInner` (src/node_ref/impl.rs): a cell holds either a resident
in-memory node or a stored pointer with a weak cache.  The `Weak<N>` is
modelled by an `Option N`: `some n` when the weak pointer upgrades to a live
shared node `n`, `none` when it is dead.  Pointers are the `MemNodeStore`'s
`usize` keys, modelled as `Nat`. -/
inductive CellInner (N : Type) : Type where
  | memNode (n : N)
  | storedNode (pointer : Nat) (cached : Option N)
deriving DecidableEq

/-- `NodeRef` (src/node_ref/impl.rs): `Empty`, or a shared `Arc<RwLock<_>>`
cell.  `uniq` records whether the `Arc` is uniquely held at the moment of the
call (`Arc::try_unwrap` succeeds); locks are never poisoned in this
single-threaded model. -/
inductive NRef (N : Type) : Type where
  | empty
  | inner (uniq : Bool) (cell : CellInner N)
deriving DecidableEq

/-- The read side of a `NodeStore` (src/node_ref/node_store.rs `read`):
a pointer either resolves to a shared node or fails. -/
def StoreRead (N : Type) : Type := Nat → Except String N

/-- `NodeManager::read` / `read_inner` (src/node_ref/node_manager.rs:27-73):
`Empty ↦ None`; a resident cell yields its node; a stored cell yields the
upgraded weak if live, otherwise the node read from the store.  The
best-effort weak refresh (`try_write`, silently skipped on contention) only
rewrites the cache and never changes the returned handle, so it is not
modelled. -/
def readRef (store : StoreRead N) : NRef N → Except String (Option N)
  | .empty => .ok none
  | .inner _ (.memNode n) => .ok (some n)
  | .inner _ (.storedNode _ (some c)) => .ok (some c)
  | .inner _ (.storedNode p none) => (store p).map some

/-- `NodeManager::take_or_clone` (src/node_ref/node_manager.rs:80-122).
Result `some (n, owned)`: `owned = true` means the caller took the node.
`editable = false`: read and clone.  `editable = true`: if the `Arc` is
uniquely held, a resident node is taken (`owned = true`) while a stored node
is loaded (weak or store) and cloned; a shared cell falls back to
`read_inner` and clones. -/
def takeOrClone (store : StoreRead N) (nodeRef : NRef N) (editable : Bool) :
    Except String (Option (N × Bool)) :=
  if !editable then
    (readRef store nodeRef).map (Option.map (fun n => (n, false)))
  else
    match nodeRef with
    | .inner true (.memNode n) => .ok (some (n, true))
    | .inner true (.storedNode _ (some c)) => .ok (some (c, false))
    | .inner true (.storedNode p none) => (store p).map (fun n => some (n, false))
    | .inner false cell =>
      (readRef store (.inner false cell)).map (Option.map (fun n => (n, false)))
    | .empty => .ok none

end NodeMgr

namespace MemStore

/-- One `HashMap<usize, (u32, Arc<N>)>` entry list with distinct keys;
`hmInsert` replaces an existing key in place and appends otherwise, matching
`HashMap::insert`, so `hm.len()` is the list length. -/
def HM (A : Type) : Type := List (Nat × A)

def hmGet {A : Type} (hm : HM A) (k : Nat) : Option A :=
  match hm.find? (fun p => p.1 == k) with
  | none => none
  | some p => some p.2

def hmInsert {A : Type} (hm : HM A) (k : Nat) (a : A) : HM A :=
  match hm with
  | [] => [(k, a)]
  | (k0, a0) :: rest =>
    if k0 == k then (k, a) :: rest else (k0, a0) :: hmInsert rest k a

def hmRemove {A : Type} (hm : HM A) (k : Nat) : HM A :=
  hm.filter (fun p => !(p.1 == k))

def hmLen {A : Type} (hm : HM A) : Nat := hm.length

/-- `MemNodeStore` (src/node_ref/node_store.rs:36): `ptr ↦ (refcount, node)`.
The `u32` refcount is modelled as `Nat` (no operation here decrements below 0
or is exercised near `u32::MAX`). -/
def Store (N : Type) : Type := HM (Nat × N)

/-- `MemNodeStore::insert` (node_store.rs:42): the new pointer is
`hm.len() + 1` and the entry starts with refcount 1. -/
def insert {N : Type} (s : Store N) (node : N) : Nat × Store N :=
  let n := hmLen s + 1
  (n, hmInsert s n (1, node))

/-- `MemNodeStore::read` (node_store.rs:53). -/
def read {N : Type} (s : Store N) (ptr : Nat) : Except String N :=
  match hmGet s ptr with
  | none => .error "not found"
  | some (_, n) => .ok n

/-- `MemNodeStore::delete` (node_store.rs:65): removes the key
unconditionally. -/
def delete {N : Type} (s : Store N) (ptr : Nat) : Store N :=
  hmRemove s ptr

/-- `MemNodeStore::inc_ref_count` (node_store.rs:75): increments and returns
the new count; fails on an unknown pointer. -/
def incRefCount {N : Type} (s : Store N) (ptr : Nat) :
    Except String (Nat × Store N) :=
  match hmGet s ptr with
  | none => .error "not found"
  | some (rc, n) => .ok (rc + 1, hmInsert s ptr (rc + 1, n))

/-- `MemNodeStore::dec_ref_count` (node_store.rs:90): returns 0 unchanged at
0, otherwise decrements and returns the new count. -/
def decRefCount {N : Type} (s : Store N) (ptr : Nat) :
    Except String (Nat × Store N) :=
  match hmGet s ptr with
  | none => .error "not found"
  | some (rc, n) =>
    if rc = 0 then .ok (0, s)
    else .ok (rc - 1, hmInsert s ptr (rc - 1, n))

/-- The refcount the store holds for `ptr`. -/
def refcountOf {N : Type} (s : Store N) (ptr : Nat) : Option Nat :=
  match hmGet s ptr with
  | none => none
  | some (rc, _) => some rc

/-- `NodeManager::save` (src/node_ref/node_manager.rs:129-159) against the
memory store: `Empty ↦ None`; a resident cell is inserted into the store and
the cell is rewritten to `StoredNode` with the returned pointer and a fresh
(dead) weak; a stored cell increments the refcount and returns its pointer. -/
def save {N : Type} (nodeRef : NodeMgr.NRef N) (s : Store N) :
    Except String (Option Nat × NodeMgr.NRef N × Store N) :=
  match nodeRef with
  | .empty => .ok (none, .empty, s)
  | .inner u (.memNode n) =>
    let p := insert s n
    .ok (some p.1, .inner u (.storedNode p.1 none), p.2)
  | .inner u (.storedNode p c) =>
    (incRefCount s p).map (fun q => (some p, .inner u (.storedNode p c), q.2))

/-- `n` successive `save` calls on the same reference, threading the updated
cell and store. -/
def saveIter {N : Type} (n : Nat) (nodeRef : NodeMgr.NRef N) (s : Store N) :
    Except String (Option Nat × NodeMgr.NRef N × Store N) :=
  match n with
  | 0 => .ok (none, nodeRef, s)
  | Nat.succ m =>
    match saveIter m nodeRef s with
    | .error e => .error e
    | .ok (_, r', s') => save r' s'

end MemStore

namespace AvlHeap

/-- The AVL `Node` with children as explicit `NodeRef`s: `none` is
`NodeRef::Empty`, `some cid` is `NodeRef::Inner` holding the shared cell with
identity `cid`.  Cell identity makes structural sharing between tree versions
observable, which is what the persistence claim is about. -/
structure HNode (K V : Type) : Type where
  key : K
  value : V
  left : Option Nat
  right : Option Nat
  height : Int
  memo : Option (List Nat)
deriving DecidableEq

/-- A cell's contents (`NodeRefInner`, tree/node_manager/node_ref.rs):
resident node, or stored pointer with a weak cache (`some` when the weak
pointer upgrades). -/
inductive Cell (K V : Type) : Type where
  | memNode (n : HNode K V)
  | storedNode (pointer : Nat) (cached : Option (HNode K V))
deriving DecidableEq

/-- The heap of `Arc<RwLock<NodeRefInner>>` cells; a cell id is its index.
Allocation (`NodeRef::new`) appends; no AVL tree operation ever rewrites an
existing cell (the best-effort weak refresh during a stored-cell read, which
may be skipped on lock contention and never changes any read result, is not
modelled). -/
abbrev Heap (K V : Type) : Type := List (Cell K V)

/-- The read side of the tree `NodeStore` (tree/node_manager/node_store.rs). -/
def StoreRead (K V : Type) : Type := Nat → Except String (HNode K V)

/-- `NullNodeStore::read` (tree/node_manager/node_store.rs:22). -/
def nullStore : StoreRead K V := fun _ => .error "not implemented"

/-- `NodeRef::new` (tree/node_manager/node_ref.rs:47): a fresh cell holding a
resident node; returns the extended heap and the new cell id. -/
def alloc (h : Heap K V) (c : Cell K V) : Heap K V × Nat := (h ++ [c], h.length)

/-- `NodeRef::read` resolving through `NodeManager::read_inner`
(tree/node_manager/mod.rs:43-89): `Empty ↦ None`; a resident cell yields its
node; a stored cell yields the upgraded weak if live, otherwise the store's
node.  A dangling cell id cannot arise in Rust (the `Arc` keeps the cell
alive); the error arm is a model artifact, unreachable from well-formed
heaps. -/
def readRefH (store : StoreRead K V) (h : Heap K V) :
    Option Nat → Except String (Option (HNode K V))
  | none => .ok none
  | some cid =>
    match h[cid]? with
    | none => .error "dangling reference"
    | some (.memNode n) => .ok (some n)
    | some (.storedNode _ (some c)) => .ok (some c)
    | some (.storedNode p none) => (store p).map some

/-- `Node::get_height` (avl/mod.rs:345) on the read result. -/
def getHeightH : Option (HNode K V) → Int
  | none => 0
  | some n => n.height

/-- `Node::update_height` (avl/mod.rs:256). -/
def updateHeightH (store : StoreRead K V) (h : Heap K V) (nd : HNode K V) :
    Except String (HNode K V × Int) :=
  match readRefH store h nd.left with
  | .error e => .error e
  | .ok lo =>
    match readRefH store h nd.right with
    | .error e => .error e
    | .ok ro =>
      .ok ({ nd with height := max (getHeightH lo) (getHeightH ro) + 1 },
           getHeightH lo - getHeightH ro)

/-- `Node::balance_factor` (avl/mod.rs:263). -/
def balanceFactorH (store : StoreRead K V) (h : Heap K V) (nd : HNode K V) :
    Except String Int :=
  match readRefH store h nd.left with
  | .error e => .error e
  | .ok lo =>
    match readRefH store h nd.right with
    | .error e => .error e
    | .ok ro => .ok (getHeightH lo - getHeightH ro)

/-- `Node::rotate_right` (avl/mod.rs:269); the `unwrap` of an empty left child
is modelled as an error (a Rust panic), unreachable where the source calls
it. -/
def rotateRightH (store : StoreRead K V) (h : Heap K V) (nd : HNode K V) :
    Except String (Heap K V × HNode K V) :=
  match readRefH store h nd.left with
  | .error e => .error e
  | .ok none => .error "unwrap of empty left child"
  | .ok (some left) =>
    match updateHeightH store h { nd with left := left.right, memo := none } with
    | .error e => .error e
    | .ok (newRight, _) =>
      let a := alloc h (.memNode newRight)
      match updateHeightH store a.1 { left with right := some a.2, memo := none } with
      | .error e => .error e
      | .ok (newTop, _) => .ok (a.1, newTop)

/-- `Node::rotate_left` (avl/mod.rs:281). -/
def rotateLeftH (store : StoreRead K V) (h : Heap K V) (nd : HNode K V) :
    Except String (Heap K V × HNode K V) :=
  match readRefH store h nd.right with
  | .error e => .error e
  | .ok none => .error "unwrap of empty right child"
  | .ok (some right) =>
    match updateHeightH store h { nd with right := right.left, memo := none } with
    | .error e => .error e
    | .ok (newLeft, _) =>
      let a := alloc h (.memNode newLeft)
      match updateHeightH store a.1 { right with left := some a.2, memo := none } with
      | .error e => .error e
      | .ok (newTop, _) => .ok (a.1, newTop)

/-- `Node::rotate_right_left` (avl/mod.rs:293): `new_top` comes from
`right.rotate_right()` (already memo-reset); the later `new_top.left :=`
field write does not reset its memo again. -/
def rotateRightLeftH (store : StoreRead K V) (h : Heap K V) (nd : HNode K V) :
    Except String (Heap K V × HNode K V) :=
  match readRefH store h nd.right with
  | .error e => .error e
  | .ok none => .error "unwrap of empty right child"
  | .ok (some right) =>
    match rotateRightH store h right with
    | .error e => .error e
    | .ok (h1, newTop) =>
      match updateHeightH store h1 { nd with right := newTop.left, memo := none } with
      | .error e => .error e
      | .ok (newLeft, _) =>
        let a := alloc h1 (.memNode newLeft)
        match updateHeightH store a.1 { newTop with left := some a.2 } with
        | .error e => .error e
        | .ok (nt, _) => .ok (a.1, nt)

/-- `Node::rotate_left_right` (avl/mod.rs:304). -/
def rotateLeftRightH (store : StoreRead K V) (h : Heap K V) (nd : HNode K V) :
    Except String (Heap K V × HNode K V) :=
  match readRefH store h nd.left with
  | .error e => .error e
  | .ok none => .error "unwrap of empty left child"
  | .ok (some left) =>
    match rotateLeftH store h left with
    | .error e => .error e
    | .ok (h1, newTop) =>
      match updateHeightH store h1 { nd with left := newTop.right, memo := none } with
      | .error e => .error e
      | .ok (newRight, _) =>
        let a := alloc h1 (.memNode newRight)
        match updateHeightH store a.1 { newTop with right := some a.2 } with
        | .error e => .error e
        | .ok (nt, _) => .ok (a.1, nt)

/-- `Node::balance` (avl/mod.rs:236). -/
def balanceH (store : StoreRead K V) (h : Heap K V) (nd : HNode K V) :
    Except String (Heap K V × HNode K V) :=
  match updateHeightH store h nd with
  | .error e => .error e
  | .ok (s, bf) =>
    if bf < -1 then
      match readRefH store h s.right with
      | .error e => .error e
      | .ok none => .error "unwrap of empty right child"
      | .ok (some rc) =>
        match balanceFactorH store h rc with
        | .error e => .error e
        | .ok rbf =>
          if rbf > 0 then rotateRightLeftH store h s else rotateLeftH store h s
    else if bf > 1 then
      match readRefH store h s.left with
      | .error e => .error e
      | .ok none => .error "unwrap of empty left child"
      | .ok (some lc) =>
        match balanceFactorH store h lc with
        | .error e => .error e
        | .ok lbf =>
          if lbf < 0 then rotateLeftRightH store h s else rotateRightH store h s
    else .ok (h, s)

/-- `Node::new_node` (avl/mod.rs:315). -/
def newNodeH (k : K) (v : V) : HNode K V :=
  { key := k, value := v, left := none, right := none, height := 1, memo := none }

variable [LinearOrder K]

/-- `Node::do_insert` (avl/mod.rs:183) over the heap, fueled because the
recursion follows read handles rather than term structure.  The `Less` and
`Greater` arms inline the child dispatch: an empty child becomes a fresh
allocated leaf, a non-empty child goes through `Node::insert` — take the node
when `editable` (otherwise clone, resetting the memo) — then is re-allocated
via `NodeRef::new`; the field is replaced by the new reference and the node
rebalanced.  `Equal` overwrites the value in place. -/
def doInsertH (fuel : Nat) (store : StoreRead K V) (h : Heap K V)
    (nd : HNode K V) (k : K) (v : V) (ed : Bool) :
    Except String (Heap K V × HNode K V) :=
  match fuel with
  | 0 => .error "fuel exhausted"
  | Nat.succ f =>
    match AvlPure.cmp3 k nd.key with
    | .lt =>
      match readRefH store h nd.left with
      | .error e => .error e
      | .ok none =>
        let a := alloc h (.memNode (newNodeH k v))
        balanceH store a.1 { nd with left := some a.2 }
      | .ok (some child) =>
        match doInsertH f store h (if ed then child else { child with memo := none }) k v ed with
        | .error e => .error e
        | .ok (h1, node') =>
          let a := alloc h1 (.memNode node')
          balanceH store a.1 { nd with left := some a.2 }
    | .eq => balanceH store h { nd with value := v }
    | .gt =>
      match readRefH store h nd.right with
      | .error e => .error e
      | .ok none =>
        let a := alloc h (.memNode (newNodeH k v))
        balanceH store a.1 { nd with right := some a.2 }
      | .ok (some child) =>
        match doInsertH f store h (if ed then child else { child with memo := none }) k v ed with
        | .error e => .error e
        | .ok (h1, node') =>
          let a := alloc h1 (.memNode node')
          balanceH store a.1 { nd with right := some a.2 }

/-- `Tree::insert` (avl/mod.rs:60), persistent: clone the root and
`do_insert` with `editable = false`; wrap the result via `NodeRef::new`. -/
def treeInsertH (fuel : Nat) (store : StoreRead K V) (h : Heap K V)
    (root : Option Nat) (k : K) (v : V) :
    Except String (Heap K V × Option Nat) :=
  match readRefH store h root with
  | .error e => .error e
  | .ok none =>
    let a := alloc h (.memNode (newNodeH k v))
    .ok (a.1, some a.2)
  | .ok (some r) =>
    match doInsertH fuel store h { r with memo := none } k v false with
    | .error e => .error e
    | .ok (h1, node') =>
      let a := alloc h1 (.memNode node')
      .ok (a.1, some a.2)

/-- `Tree::insert_mut` (avl/mod.rs:89): `Node::insert(r, k, v, store, true)`;
with the `Arc` uniquely held the node is taken as-is (the `Err` fallback
clones, differing only in the reset memo). -/
def treeInsertMutH (fuel : Nat) (store : StoreRead K V) (h : Heap K V)
    (root : Option Nat) (k : K) (v : V) :
    Except String (Heap K V × Option Nat) :=
  match readRefH store h root with
  | .error e => .error e
  | .ok none =>
    let a := alloc h (.memNode (newNodeH k v))
    .ok (a.1, some a.2)
  | .ok (some r) =>
    match doInsertH fuel store h r k v true with
    | .error e => .error e
    | .ok (h1, node') =>
      let a := alloc h1 (.memNode node')
      .ok (a.1, some a.2)

/-- `Node::delete` (avl/mod.rs:203) over the heap.  The child dispatch is
inlined: an `Empty` child stays `Empty`; a non-empty child's recursive
deletion is re-wrapped (`NodeRef::new`) unless it vanished.  The rebuilt node
is a clone (`..self.clone()`, memo reset) and is rebalanced; an `Equal` match
returns no node. -/
def deleteNH (fuel : Nat) (store : StoreRead K V) (h : Heap K V)
    (nd : HNode K V) (k : K) :
    Except String (Heap K V × Option (HNode K V)) :=
  match fuel with
  | 0 => .error "fuel exhausted"
  | Nat.succ f =>
    match AvlPure.cmp3 k nd.key with
    | .lt =>
      match readRefH store h nd.left with
      | .error e => .error e
      | .ok none =>
        match balanceH store h { nd with left := none, memo := none } with
        | .error e => .error e
        | .ok (h1, n') => .ok (h1, some n')
      | .ok (some child) =>
        match deleteNH f store h child k with
        | .error e => .error e
        | .ok (h1, none) =>
          match balanceH store h1 { nd with left := none, memo := none } with
          | .error e => .error e
          | .ok (h2, n') => .ok (h2, some n')
        | .ok (h1, some child') =>
          let a := alloc h1 (.memNode child')
          match balanceH store a.1 { nd with left := some a.2, memo := none } with
          | .error e => .error e
          | .ok (h2, n') => .ok (h2, some n')
    | .eq => .ok (h, none)
    | .gt =>
      match readRefH store h nd.right with
      | .error e => .error e
      | .ok none =>
        match balanceH store h { nd with right := none, memo := none } with
        | .error e => .error e
        | .ok (h1, n') => .ok (h1, some n')
      | .ok (some child) =>
        match deleteNH f store h child k with
        | .error e => .error e
        | .ok (h1, none) =>
          match balanceH store h1 { nd with right := none, memo := none } with
          | .error e => .error e
          | .ok (h2, n') => .ok (h2, some n')
        | .ok (h1, some child') =>
          let a := alloc h1 (.memNode child')
          match balanceH store a.1 { nd with right := some a.2, memo := none } with
          | .error e => .error e
          | .ok (h2, n') => .ok (h2, some n')

/-- `Tree::delete` (avl/mod.rs:74). -/
def treeDeleteH (fuel : Nat) (store : StoreRead K V) (h : Heap K V)
    (root : Option Nat) (k : K) :
    Except String (Heap K V × Option Nat) :=
  match readRefH store h root with
  | .error e => .error e
  | .ok none => .ok (h, none)
  | .ok (some r) =>
    match deleteNH fuel store h r k with
    | .error e => .error e
    | .ok (h1, none) => .ok (h1, none)
    | .ok (h1, some node') =>
      let a := alloc h1 (.memNode node')
      .ok (a.1, some a.2)

/-- `Node::get` (avl/mod.rs:152) over the heap. -/
def getNH (fuel : Nat) (store : StoreRead K V) (h : Heap K V)
    (nd : HNode K V) (q : K) : Except String (Option V) :=
  match fuel with
  | 0 => .error "fuel exhausted"
  | Nat.succ f =>
    match AvlPure.cmp3 q nd.key with
    | .lt =>
      match readRefH store h nd.left with
      | .error e => .error e
      | .ok none => .ok none
      | .ok (some child) => getNH f store h child q
    | .eq => .ok (some nd.value)
    | .gt =>
      match readRefH store h nd.right with
      | .error e => .error e
      | .ok none => .ok none
      | .ok (some child) => getNH f store h child q

/-- `Tree::get` (avl/mod.rs:48). -/
def treeGetH (fuel : Nat) (store : StoreRead K V) (h : Heap K V)
    (root : Option Nat) (q : K) : Except String (Option V) :=
  match readRefH store h root with
  | .error e => .error e
  | .ok none => .ok none
  | .ok (some r) => getNH fuel store h r q

/-- The reference points at a purely in-memory tree: every reachable cell is
resident (`MemNode`), and every reachable node's stored height is
nonnegative (true of every node the library builds; it rules out the
`unwrap` panics in `balance` on corrupted heights). -/
def wfRef : Nat → Heap K V → Option Nat → Bool
  | _, _, none => true
  | 0, _, some _ => false
  | Nat.succ f, h, some cid =>
    match h[cid]? with
    | some (.memNode nd) =>
      decide (0 ≤ nd.height) && wfRef f h nd.left && wfRef f h nd.right
    | _ => false

/-- `wfRef` for a node value held outside the heap (an owned/cloned node). -/
def wfNode (f : Nat) (h : Heap K V) (nd : HNode K V) : Bool :=
  decide (0 ≤ nd.height) && wfRef f h nd.left && wfRef f h nd.right

/-- The persistent-map operations of claim C3, applied in sequence (each op
acts on the newest returned tree). -/
inductive Op (K V : Type) : Type where
  | ins (k : K) (v : V)
  | del (k : K)

/-- Apply a sequence of persistent operations, threading heap and root. -/
def applyOps (fuel : Nat) (store : StoreRead K V) :
    List (Op K V) → Heap K V → Option Nat →
    Except String (Heap K V × Option Nat)
  | [], h, r => .ok (h, r)
  | .ins k v :: rest, h, r =>
    match treeInsertH fuel store h r k v with
    | .error e => .error e
    | .ok (h', r') => applyOps fuel store rest h' r'
  | .del k :: rest, h, r =>
    match treeDeleteH fuel store h r k with
    | .error e => .error e
    | .ok (h', r') => applyOps fuel store rest h' r'

/-- Heap extension: the old heap is an initial segment of the new one. -/
def HeapExt (h h' : Heap K V) : Prop := ∃ ext, h' = h ++ ext

end AvlHeap

/-! ## Theorems -/

namespace AvlPure

theorem cmp3_lt {K : Type} [LinearOrder K] {a b : K} (h : a < b) :
    cmp3 a b = .lt := by simp [cmp3, h]

theorem cmp3_eq {K : Type} [LinearOrder K] {a b : K} (h : a = b) :
    cmp3 a b = .eq := by subst h; simp [cmp3]

theorem cmp3_gt {K : Type} [LinearOrder K] {a b : K} (h : b < a) :
    cmp3 a b = .gt := by
  unfold cmp3
  rw [if_neg (not_lt.mpr (le_of_lt h)), if_pos h]

variable {K V : Type} [LinearOrder K]

/-- On nodes, `insertN` is `do_insert` after the take-or-clone step of
`Node::insert` (the clone resets exactly the memo field). -/
theorem insertN_eq_doInsert (t : Avl K V) (k : K) (v : V) (ed : Bool)
    (h : t ≠ .empty) :
    insertN t k v ed = doInsert (if ed then t else cloneN t) k v ed := by
  cases t with
  | empty => exact absurd rfl h
  | node k0 v0 l r hh m => cases ed <;> rfl

end AvlPure

open AvlPure in
/-- **C8, confirmed.** `Node::balance` performs exactly the case analysis the
claim describes: it first recomputes the node's height
(`1 + max(h(left), h(right))`, empty height 0); then with
`bf = height(left) − height(right)` it performs a right-left rotation when
`bf < −1` and the right child's balance factor is `> 0`, a left rotation when
`bf < −1` otherwise, a left-right rotation when `bf > 1` and the left child's
balance factor is `< 0`, a right rotation when `bf > 1` otherwise, and no
rotation at all when `−1 ≤ bf ≤ 1` (`balanceSpec` spells out that case
analysis in the claim's own words). -/
theorem C8_balance_case_analysis {K V : Type} [LinearOrder K]
    (n : AvlPure.Avl K V) : balance n = balanceSpec n := by
  cases n with
  | empty => rfl
  | node k v l r h m =>
    have hmax : max (getHeight l) (getHeight r) + 1
        = 1 + max (getHeight l) (getHeight r) := by omega
    simp only [balance, balanceSpec, updateHeight, leftOf, rightOf, hmax]

open AvlPure in
/-- **C9, confirmed.** On a BST node with a non-empty right child,
`rotate_left` preserves the in-order key/value sequence and the result of
`get` at every key; symmetrically `rotate_right` on a BST node with a
non-empty left child. -/
theorem C9_rotations_preserve_contents {K V : Type} [LinearOrder K]
    (n m : AvlPure.Avl K V)
    (hn : isEmpty (rightOf n) = false) (hbn : isBST n = true)
    (hm : isEmpty (leftOf m) = false) (hbm : isBST m = true) :
    (toList (rotateLeft n) = toList n ∧ ∀ q, get (rotateLeft n) q = get n q) ∧
    (toList (rotateRight m) = toList m ∧ ∀ q, get (rotateRight m) q = get m q) := by
  constructor
  · cases n with
    | empty => simp [rightOf, isEmpty] at hn
    | node k1 v1 a R h mm =>
      cases R with
      | empty => simp [rightOf, isEmpty] at hn
      | node k2 v2 b c rh rm =>
        have hk12 : k1 < k2 := by
          simp only [isBST, forAllKeys, Bool.and_eq_true, decide_eq_true_eq] at hbn
          exact hbn.1.1.2.1.1
        constructor
        · simp [rotateLeft, updateHeight, toList]
        · intro q
          rcases lt_trichotomy q k1 with hq1 | hq1 | hq1
          · simp [rotateLeft, updateHeight, AvlPure.get, cmp3_lt hq1,
              cmp3_lt (hq1.trans hk12)]
          · subst hq1
            simp [rotateLeft, updateHeight, AvlPure.get, cmp3_eq (rfl : q = q),
              cmp3_lt hk12]
          · rcases lt_trichotomy q k2 with hq2 | hq2 | hq2
            · simp [rotateLeft, updateHeight, AvlPure.get, cmp3_gt hq1, cmp3_lt hq2]
            · subst hq2
              simp [rotateLeft, updateHeight, AvlPure.get, cmp3_gt hq1,
                cmp3_eq (rfl : q = q)]
            · simp [rotateLeft, updateHeight, AvlPure.get, cmp3_gt hq1, cmp3_gt hq2]
  · cases m with
    | empty => simp [leftOf, isEmpty] at hm
    | node k2 v2 L c h mm =>
      cases L with
      | empty => simp [leftOf, isEmpty] at hm
      | node k1 v1 a b lh lm =>
        have hk12 : k1 < k2 := by
          simp only [isBST, forAllKeys, Bool.and_eq_true, decide_eq_true_eq] at hbm
          exact hbm.1.1.1.1.1
        constructor
        · simp [rotateRight, updateHeight, toList]
        · intro q
          rcases lt_trichotomy q k1 with hq1 | hq1 | hq1
          · simp [rotateRight, updateHeight, AvlPure.get, cmp3_lt hq1,
              cmp3_lt (hq1.trans hk12)]
          · subst hq1
            simp [rotateRight, updateHeight, AvlPure.get, cmp3_eq (rfl : q = q),
              cmp3_lt hk12]
          · rcases lt_trichotomy q k2 with hq2 | hq2 | hq2
            · simp [rotateRight, updateHeight, AvlPure.get, cmp3_gt hq1, cmp3_lt hq2]
            · subst hq2
              simp [rotateRight, updateHeight, AvlPure.get, cmp3_gt hq1,
                cmp3_eq (rfl : q = q)]
            · simp [rotateRight, updateHeight, AvlPure.get, cmp3_gt hq1, cmp3_gt hq2]

open AvlPure in
/-- Witness for C9 at a concrete pair of trees. -/
theorem C9_rotations_preserve_contents_witness :
    (toList (rotateLeft (.node 1 10 .empty (.node 2 20 .empty .empty 1 none)
        2 none : AvlPure.Avl Int Int))
      = toList (.node 1 10 .empty (.node 2 20 .empty .empty 1 none) 2 none :
          AvlPure.Avl Int Int) ∧
     ∀ q, get (rotateLeft (.node 1 10 .empty (.node 2 20 .empty .empty 1 none)
        2 none : AvlPure.Avl Int Int)) q
      = get (.node 1 10 .empty (.node 2 20 .empty .empty 1 none) 2 none :
          AvlPure.Avl Int Int) q) ∧
    (toList (rotateRight (.node 2 20 (.node 1 10 .empty .empty 1 none) .empty
        2 none : AvlPure.Avl Int Int))
      = toList (.node 2 20 (.node 1 10 .empty .empty 1 none) .empty 2 none :
          AvlPure.Avl Int Int) ∧
     ∀ q, get (rotateRight (.node 2 20 (.node 1 10 .empty .empty 1 none) .empty
        2 none : AvlPure.Avl Int Int)) q
      = get (.node 2 20 (.node 1 10 .empty .empty 1 none) .empty 2 none :
          AvlPure.Avl Int Int) q) :=
  C9_rotations_preserve_contents
    (.node 1 10 .empty (.node 2 20 .empty .empty 1 none) 2 none)
    (.node 2 20 (.node 1 10 .empty .empty 1 none) .empty 2 none)
    (by decide) (by decide) (by decide) (by decide)

open AvlPure in
/-- **C7, confirmed.** `Node::merkle_hash`: (1) a memoized digest is fed to
the caller's sink unchanged, with no rehashing and no change to the node;
(2) with no memoized value, the digest is the finalization of a fresh
sub-hasher fed, in order, the key's bytes, the value's bytes, the left
subtree's recursive hash (nothing when the left child is empty), a single `0`
byte exactly when the left child is empty and the right child is not, and the
right subtree's recursive hash (nothing when the right child is empty); the
result is memoized (children come back memoized from the recursion) and fed
to the caller's sink; (3) consequently computing the hash twice yields the
same bytes, the second time from the memo. -/
theorem C7_merkle_hash_schema {K V : Type} (f : List Nat → List Nat)
    (kB : K → List Nat) (vB : V → List Nat) :
    (∀ (k : K) (v : V) (l r : AvlPure.Avl K V) (h : Int) (d : List Nat),
      merkleHash f kB vB (.node k v l r h (some d)) =
        (d, .node k v l r h (some d))) ∧
    (∀ (k : K) (v : V) (l r : AvlPure.Avl K V) (h : Int),
      merkleHash f kB vB (.node k v l r h none) =
        (f (kB k ++ vB v ++ (merkleHash f kB vB l).1 ++
            (if isEmpty l && !(isEmpty r) then [0] else []) ++
            (merkleHash f kB vB r).1),
         .node k v (merkleHash f kB vB l).2 (merkleHash f kB vB r).2 h
           (some (f (kB k ++ vB v ++ (merkleHash f kB vB l).1 ++
             (if isEmpty l && !(isEmpty r) then [0] else []) ++
             (merkleHash f kB vB r).1))))) ∧
    (∀ t : AvlPure.Avl K V,
      merkleHash f kB vB ((merkleHash f kB vB t).2) =
        ((merkleHash f kB vB t).1, (merkleHash f kB vB t).2)) := by
  refine ⟨fun k v l r h d => rfl, fun k v l r h => ?_, fun t => ?_⟩
  · cases l <;> cases r <;> simp [merkleHash, isEmpty]
  · cases t with
    | empty => rfl
    | node k v l r h m =>
      cases m with
      | some d => rfl
      | none => simp [merkleHash]

/-- **C4, confirmed.** `NodeManager::take_or_clone` returns "empty" exactly
when the reference is `Empty`; with `editable = false` every returned pair is
a clone (`owned = false`); a pair with `owned = true` arises only from an
`editable` call on a uniquely held in-memory resident cell — and such a call
does return the resident node with `owned = true`; every other successful
non-empty case (stored cell, or cell with additional sharers) yields
`owned = false`. -/
theorem C4_takeOrClone_policy {N : Type} (store : NodeMgr.StoreRead N)
    (r : NodeMgr.NRef N) (ed : Bool) (res : Option (N × Bool))
    (h : NodeMgr.takeOrClone store r ed = .ok res) :
    (res = none ↔ r = .empty) ∧
    (ed = false → ∀ n b, res = some (n, b) → b = false) ∧
    (∀ n b, res = some (n, b) → b = true → ed = true ∧
      r = .inner true (.memNode n)) ∧
    (ed = true → ∀ n, r = .inner true (.memNode n) → res = some (n, true)) := by
  rcases r with _ | ⟨u, cell⟩
  · cases ed <;>
      simp [NodeMgr.takeOrClone, NodeMgr.readRef, Except.map, Option.map] at h <;>
      subst h <;> simp
  · rcases cell with ⟨n⟩ | ⟨p, c⟩
    · cases u <;> cases ed <;>
        simp [NodeMgr.takeOrClone, NodeMgr.readRef, Except.map, Option.map] at h <;>
        subst h <;> simp
    · rcases c with _ | ⟨cn⟩
      · cases u <;> cases ed <;>
          simp [NodeMgr.takeOrClone, NodeMgr.readRef] at h <;>
          rcases hsp : store p with e | sn <;> rw [hsp] at h <;>
          simp [Except.map, Option.map] at h <;> subst h <;> simp
      · cases u <;> cases ed <;>
          simp [NodeMgr.takeOrClone, NodeMgr.readRef, Except.map, Option.map] at h <;>
          subst h <;> simp

/-- Witness for C4: an `editable` call on a uniquely held resident cell
(over a store whose reads always fail) returns the node with
`owned = true`. -/
theorem C4_takeOrClone_policy_witness :
    ((some ((5 : Nat), true) : Option (Nat × Bool)) = none ↔
      (NodeMgr.NRef.inner true (.memNode 5) : NodeMgr.NRef Nat) = .empty) ∧
    (true = false → ∀ (n : Nat) (b : Bool),
      (some ((5 : Nat), true) : Option (Nat × Bool)) = some (n, b) →
        b = false) ∧
    (∀ (n : Nat) (b : Bool),
      (some ((5 : Nat), true) : Option (Nat × Bool)) = some (n, b) →
      b = true → true = true ∧
        (NodeMgr.NRef.inner true (.memNode 5) : NodeMgr.NRef Nat) =
          .inner true (.memNode n)) ∧
    (true = true → ∀ n : Nat,
      (NodeMgr.NRef.inner true (.memNode 5) : NodeMgr.NRef Nat) =
        .inner true (.memNode n) →
      (some ((5 : Nat), true) : Option (Nat × Bool)) = some (n, true)) :=
  C4_takeOrClone_policy (fun _ => .error "not found")
    (.inner true (.memNode 5)) true (some (5, true)) rfl

namespace MemStore

theorem hmGet_hmInsert_self {A : Type} (hm : HM A) (k : Nat) (a : A) :
    hmGet (hmInsert hm k a) k = some a := by
  induction hm with
  | nil => simp [hmInsert, hmGet, List.find?]
  | cons p rest ih =>
    obtain ⟨k0, a0⟩ := p
    by_cases hk : k0 = k
    · subst hk
      simp [hmInsert, hmGet, List.find?]
    · have hbeq : (k0 == k) = false := beq_eq_false_iff_ne.mpr hk
      simp only [hmInsert, hbeq, if_false, Bool.false_eq_true]
      simp only [hmGet, List.find?, hbeq] at ih ⊢
      exact ih

/-- `n` successive saves of a resident reference: the first save inserts
(refcount 1, pointer `hm.len() + 1`), each further save increments; the final
refcount is `n` and the cell ends up `StoredNode` at that pointer. -/
theorem saveIter_memNode {N : Type} (n : Nat) (u : Bool) (nd : N)
    (s : Store N) (hn : 1 ≤ n) :
    ∃ s', saveIter n (.inner u (.memNode nd)) s =
        .ok (some (hmLen s + 1), .inner u (.storedNode (hmLen s + 1) none), s') ∧
      hmGet s' (hmLen s + 1) = some (n, nd) := by
  induction n with
  | zero => omega
  | succ m ih =>
    cases m with
    | zero =>
      refine ⟨hmInsert s (hmLen s + 1) (1, nd), ?_, ?_⟩
      · simp [saveIter, save, MemStore.insert]
      · exact hmGet_hmInsert_self ..
    | succ m' =>
      obtain ⟨s', hrun, hget⟩ := ih (by omega)
      refine ⟨hmInsert s' (hmLen s + 1) (m' + 1 + 1, nd), ?_, ?_⟩
      · show (match saveIter (m' + 1) (.inner u (.memNode nd)) s with
          | Except.error e => Except.error e
          | Except.ok (_, r', s') => save r' s') = _
        rw [hrun]
        simp [save, incRefCount, hget, Except.map]
      · exact hmGet_hmInsert_self ..

end MemStore

open MemStore in
/-- **C5, confirmed.** `NodeManager::save` against the memory store:
(1) `Empty` saves to no pointer and leaves everything unchanged;
(2) a resident cell is inserted into the store (fresh pointer
`hm.len() + 1`, refcount 1), the cell is rewritten to `StoredNode` with that
pointer and a fresh dead weak, and the pointer is returned;
(3) an already-stored cell increments the store refcount and returns the
existing pointer; (4) consequently, `n ≥ 1` successive saves on the same
originally-resident reference leave the store refcount for its pointer at
exactly `n`. -/
theorem C5_save_semantics {N : Type} :
    (∀ s : Store N, save (.empty : NodeMgr.NRef N) s = .ok (none, .empty, s)) ∧
    (∀ (u : Bool) (n : N) (s : Store N),
      save (.inner u (.memNode n)) s =
        .ok (some (hmLen s + 1), .inner u (.storedNode (hmLen s + 1) none),
          hmInsert s (hmLen s + 1) (1, n))) ∧
    (∀ (u : Bool) (p : Nat) (c : Option N) (s : Store N) (rc : Nat) (n0 : N),
      hmGet s p = some (rc, n0) →
      save (.inner u (.storedNode p c)) s =
        .ok (some p, .inner u (.storedNode p c), hmInsert s p (rc + 1, n0))) ∧
    (∀ (n : Nat) (u : Bool) (nd : N) (s : Store N), 1 ≤ n →
      ∃ s', saveIter n (.inner u (.memNode nd)) s =
          .ok (some (hmLen s + 1),
            .inner u (.storedNode (hmLen s + 1) none), s') ∧
        refcountOf s' (hmLen s + 1) = some n) := by
  refine ⟨fun s => rfl, fun u n s => ?_, fun u p c s rc n0 hg => ?_,
    fun n u nd s hn => ?_⟩
  · simp [save, MemStore.insert]
  · simp [save, incRefCount, hg, Except.map]
  · obtain ⟨s', hrun, hget⟩ := saveIter_memNode n u nd s hn
    exact ⟨s', hrun, by simp [refcountOf, hget]⟩

open MemStore in
/-- Witness for C5: a save of an already-stored cell on a one-entry store
increments the refcount to 2, and two saves of a resident node on the empty
store leave refcount 2 at pointer 1. -/
theorem C5_save_semantics_witness :
    (save (.inner true (.storedNode 1 none)) ([(1, (1, (5 : Nat)))] : Store Nat) =
      .ok (some 1, .inner true (.storedNode 1 none),
        hmInsert ([(1, (1, 5))] : Store Nat) 1 (2, 5))) ∧
    (∃ s', saveIter 2 (.inner true (.memNode (7 : Nat))) ([] : Store Nat) =
        .ok (some 1, .inner true (.storedNode 1 none), s') ∧
      refcountOf s' 1 = some 2) :=
  ⟨(C5_save_semantics (N := Nat)).2.2.1 true 1 none [(1, (1, 5))] 1 5 (by decide),
   (C5_save_semantics (N := Nat)).2.2.2 2 true 7 [] (by omega)⟩

namespace AvlHeap

variable {K V : Type}

theorem heapExt_refl (h : Heap K V) : HeapExt h h := ⟨[], by simp⟩

theorem heapExt_trans {h1 h2 h3 : Heap K V} (a : HeapExt h1 h2)
    (b : HeapExt h2 h3) : HeapExt h1 h3 := by
  obtain ⟨e1, rfl⟩ := a
  obtain ⟨e2, rfl⟩ := b
  exact ⟨e1 ++ e2, by simp⟩

theorem heapExt_alloc (h : Heap K V) (c : Cell K V) :
    HeapExt h (alloc h c).1 := ⟨[c], rfl⟩

/-- Existing cells keep their contents under heap extension. -/
theorem lookup_ext {h h' : Heap K V} {cid : Nat} {c : Cell K V}
    (hext : HeapExt h h') (hc : h[cid]? = some c) : h'[cid]? = some c := by
  obtain ⟨ext, rfl⟩ := hext
  have hlt : cid < h.length := by
    by_contra hge
    rw [List.getElem?_eq_none (by omega)] at hc
    exact Option.noConfusion hc
  rw [List.getElem?_append, if_pos hlt]
  exact hc

section FrameLemmas

theorem rotateRightH_ext {store : StoreRead K V} {h : Heap K V}
    {nd : HNode K V} {h' : Heap K V} {nt : HNode K V}
    (hok : rotateRightH store h nd = .ok (h', nt)) : HeapExt h h' := by
  unfold rotateRightH at hok
  simp only [alloc] at hok
  repeat' split at hok
  all_goals first
    | exact Except.noConfusion hok
    | (injection hok with hp; injection hp with hheq hnt;
       exact hheq ▸ ⟨_, rfl⟩)

theorem rotateLeftH_ext {store : StoreRead K V} {h : Heap K V}
    {nd : HNode K V} {h' : Heap K V} {nt : HNode K V}
    (hok : rotateLeftH store h nd = .ok (h', nt)) : HeapExt h h' := by
  unfold rotateLeftH at hok
  simp only [alloc] at hok
  repeat' split at hok
  all_goals first
    | exact Except.noConfusion hok
    | (injection hok with hp; injection hp with hheq hnt;
       exact hheq ▸ ⟨_, rfl⟩)

theorem rotateRightLeftH_ext {store : StoreRead K V} {h : Heap K V}
    {nd : HNode K V} {h' : Heap K V} {nt : HNode K V}
    (hok : rotateRightLeftH store h nd = .ok (h', nt)) : HeapExt h h' := by
  unfold rotateRightLeftH at hok
  simp only [alloc] at hok
  repeat' split at hok
  all_goals first
    | exact Except.noConfusion hok
    | (injection hok with hp; injection hp with hheq hnt
       subst hheq
       exact heapExt_trans (rotateRightH_ext (by assumption)) ⟨_, rfl⟩)

theorem rotateLeftRightH_ext {store : StoreRead K V} {h : Heap K V}
    {nd : HNode K V} {h' : Heap K V} {nt : HNode K V}
    (hok : rotateLeftRightH store h nd = .ok (h', nt)) : HeapExt h h' := by
  unfold rotateLeftRightH at hok
  simp only [alloc] at hok
  repeat' split at hok
  all_goals first
    | exact Except.noConfusion hok
    | (injection hok with hp; injection hp with hheq hnt
       subst hheq
       exact heapExt_trans (rotateLeftH_ext (by assumption)) ⟨_, rfl⟩)

theorem balanceH_ext {store : StoreRead K V} {h : Heap K V}
    {nd : HNode K V} {h' : Heap K V} {nt : HNode K V}
    (hok : balanceH store h nd = .ok (h', nt)) : HeapExt h h' := by
  unfold balanceH at hok
  repeat' split at hok
  all_goals first
    | exact Except.noConfusion hok
    | exact rotateRightLeftH_ext hok
    | exact rotateLeftH_ext hok
    | exact rotateLeftRightH_ext hok
    | exact rotateRightH_ext hok
    | (injection hok with hp; injection hp with hheq hnt;
       exact hheq ▸ heapExt_refl h)

theorem doInsertH_ext [LinearOrder K] {store : StoreRead K V} :
    ∀ {fuel : Nat} {h : Heap K V} {nd : HNode K V} {k : K} {v : V} {ed : Bool}
      {h' : Heap K V} {nd' : HNode K V},
    doInsertH fuel store h nd k v ed = .ok (h', nd') → HeapExt h h' := by
  intro fuel
  induction fuel with
  | zero => intro h nd k v ed h' nd' hok; exact Except.noConfusion hok
  | succ f ih =>
    intro h nd k v ed h' nd' hok
    unfold doInsertH at hok
    simp only [alloc] at hok
    repeat' split at hok
    all_goals first
      | exact Except.noConfusion hok
      | exact balanceH_ext hok
      | exact heapExt_trans ⟨_, rfl⟩ (balanceH_ext hok)
      | exact heapExt_trans (heapExt_trans (ih (by assumption)) ⟨_, rfl⟩)
          (balanceH_ext hok)

theorem treeInsertH_ext [LinearOrder K] {store : StoreRead K V}
    {fuel : Nat} {h : Heap K V} {root : Option Nat} {k : K} {v : V}
    {h' : Heap K V} {r' : Option Nat}
    (hok : treeInsertH fuel store h root k v = .ok (h', r')) : HeapExt h h' := by
  unfold treeInsertH at hok
  simp only [alloc] at hok
  repeat' split at hok
  all_goals first
    | exact Except.noConfusion hok
    | (injection hok with hp; injection hp with hheq _;
       exact hheq ▸ ⟨_, rfl⟩)
    | (injection hok with hp; injection hp with hheq _
       subst hheq
       exact heapExt_trans (doInsertH_ext (by assumption)) ⟨_, rfl⟩)

theorem treeInsertMutH_ext [LinearOrder K] {store : StoreRead K V}
    {fuel : Nat} {h : Heap K V} {root : Option Nat} {k : K} {v : V}
    {h' : Heap K V} {r' : Option Nat}
    (hok : treeInsertMutH fuel store h root k v = .ok (h', r')) :
    HeapExt h h' := by
  unfold treeInsertMutH at hok
  simp only [alloc] at hok
  repeat' split at hok
  all_goals first
    | exact Except.noConfusion hok
    | (injection hok with hp; injection hp with hheq _;
       exact hheq ▸ ⟨_, rfl⟩)
    | (injection hok with hp; injection hp with hheq _
       subst hheq
       exact heapExt_trans (doInsertH_ext (by assumption)) ⟨_, rfl⟩)

theorem deleteNH_ext [LinearOrder K] {store : StoreRead K V} :
    ∀ {fuel : Nat} {h : Heap K V} {nd : HNode K V} {k : K}
      {h' : Heap K V} {res : Option (HNode K V)},
    deleteNH fuel store h nd k = .ok (h', res) → HeapExt h h' := by
  intro fuel
  induction fuel with
  | zero => intro h nd k h' res hok; exact Except.noConfusion hok
  | succ f ih =>
    intro h nd k h' res hok
    unfold deleteNH at hok
    simp only [alloc] at hok
    repeat' split at hok
    all_goals first
      | exact Except.noConfusion hok
      | (injection hok with hp; injection hp with hheq _;
         exact hheq ▸ heapExt_refl h)
      | (injection hok with hp; injection hp with hheq _
         subst hheq
         first
           | exact balanceH_ext (by assumption)
           | exact heapExt_trans (ih (by assumption))
               (balanceH_ext (by assumption))
           | exact heapExt_trans (heapExt_trans (ih (by assumption)) ⟨_, rfl⟩)
               (balanceH_ext (by assumption)))

theorem treeDeleteH_ext [LinearOrder K] {store : StoreRead K V}
    {fuel : Nat} {h : Heap K V} {root : Option Nat} {k : K}
    {h' : Heap K V} {r' : Option Nat}
    (hok : treeDeleteH fuel store h root k = .ok (h', r')) : HeapExt h h' := by
  unfold treeDeleteH at hok
  simp only [alloc] at hok
  repeat' split at hok
  all_goals first
    | exact Except.noConfusion hok
    | (injection hok with hp; injection hp with hheq _;
       exact hheq ▸ heapExt_refl h)
    | (injection hok with hp; injection hp with hheq _
       subst hheq
       first
         | exact deleteNH_ext (by assumption)
         | exact heapExt_trans (deleteNH_ext (by assumption)) ⟨_, rfl⟩)

theorem applyOps_ext [LinearOrder K] {store : StoreRead K V} {fuel : Nat} :
    ∀ {ops : List (Op K V)} {h : Heap K V} {r : Option Nat}
      {h' : Heap K V} {r' : Option Nat},
    applyOps fuel store ops h r = .ok (h', r') → HeapExt h h' := by
  intro ops
  induction ops with
  | nil =>
    intro h r h' r' hok
    injection hok with hp
    injection hp with hheq _
    exact hheq ▸ heapExt_refl h
  | cons op rest ih =>
    intro h r h' r' hok
    cases op with
    | ins k v =>
      unfold applyOps at hok
      split at hok
      · exact Except.noConfusion hok
      · exact heapExt_trans (treeInsertH_ext (by assumption)) (ih hok)
    | del k =>
      unfold applyOps at hok
      split at hok
      · exact Except.noConfusion hok
      · exact heapExt_trans (treeDeleteH_ext (by assumption)) (ih hok)

/-- Unfold a `wfRef` fact at a non-empty reference. -/
theorem wfRef_some {f : Nat} {h : Heap K V} {cid : Nat}
    (hw : wfRef f h (some cid) = true) :
    ∃ f' child, f = f' + 1 ∧ h[cid]? = some (.memNode child) ∧
      wfNode f' h child = true := by
  cases f with
  | zero => exact absurd hw (by simp [wfRef])
  | succ f' =>
    unfold wfRef at hw
    split at hw
    · rename_i child hlook
      refine ⟨f', child, rfl, hlook, ?_⟩
      simp only [Bool.and_eq_true] at hw
      simp [wfNode, hw.1.1, hw.1.2, hw.2]
    · exact Bool.noConfusion hw

/-- Reads of a node of a purely in-memory tree are unchanged by heap
extension. -/
theorem getNH_stable [LinearOrder K] {store : StoreRead K V}
    {h h' : Heap K V} (hext : HeapExt h h') :
    ∀ (g f : Nat) (nd : HNode K V) (q : K), wfNode f h nd = true →
    getNH g store h' nd q = getNH g store h nd q := by
  intro g
  induction g with
  | zero => intro f nd q hw; rfl
  | succ g' ih =>
    intro f nd q hw
    simp only [wfNode, Bool.and_eq_true] at hw
    unfold getNH
    rcases hcmp : AvlPure.cmp3 q nd.key with _ | _ | _ <;> simp only [hcmp]
    · cases hl : nd.left with
      | none => simp [readRefH]
      | some cid =>
        rw [hl] at hw
        obtain ⟨f', child, rfl, hlook, hchild⟩ := wfRef_some hw.1.2
        rw [show readRefH store h (some cid) = .ok (some child) by
              simp [readRefH, hlook],
            show readRefH store h' (some cid) = .ok (some child) by
              simp [readRefH, lookup_ext hext hlook]]
        exact ih f' child q hchild
    · cases hr : nd.right with
      | none => simp [readRefH]
      | some cid =>
        rw [hr] at hw
        obtain ⟨f', child, rfl, hlook, hchild⟩ := wfRef_some hw.2
        rw [show readRefH store h (some cid) = .ok (some child) by
              simp [readRefH, hlook],
            show readRefH store h' (some cid) = .ok (some child) by
              simp [readRefH, lookup_ext hext hlook]]
        exact ih f' child q hchild

/-- `Tree::get` on a purely in-memory tree is unchanged by heap extension. -/
theorem treeGetH_stable [LinearOrder K] {store : StoreRead K V}
    {h h' : Heap K V} (hext : HeapExt h h') {f : Nat} {r : Option Nat}
    (hw : wfRef f h r = true) (g : Nat) (q : K) :
    treeGetH g store h' r q = treeGetH g store h r q := by
  cases r with
  | none => rfl
  | some cid =>
    obtain ⟨f', child, rfl, hlook, hchild⟩ := wfRef_some hw
    unfold treeGetH
    rw [show readRefH store h (some cid) = .ok (some child) by
          simp [readRefH, hlook],
        show readRefH store h' (some cid) = .ok (some child) by
          simp [readRefH, lookup_ext hext hlook]]
    exact getNH_stable hext g f' child q hchild

end FrameLemmas

section NullStoreLemmas

theorem wfRef_mono : ∀ {f g : Nat} {h : Heap K V} {r : Option Nat},
    wfRef f h r = true → f ≤ g → wfRef g h r = true := by
  intro f
  induction f with
  | zero =>
    intro g h r hw _
    cases r with
    | none => cases g <;> rfl
    | some cid => exact absurd hw (by simp [wfRef])
  | succ f' ih =>
    intro g h r hw hle
    cases r with
    | none => cases g <;> rfl
    | some cid =>
      cases g with
      | zero => omega
      | succ g' =>
        unfold wfRef at hw ⊢
        split at hw
        · rename_i child hlook
          simp only [Bool.and_eq_true] at hw ⊢
          exact ⟨⟨hw.1.1, ih hw.1.2 (by omega)⟩, ih hw.2 (by omega)⟩
        · exact Bool.noConfusion hw

theorem wfNode_mono {f g : Nat} {h : Heap K V} {nd : HNode K V}
    (hw : wfNode f h nd = true) (hle : f ≤ g) : wfNode g h nd = true := by
  simp only [wfNode, Bool.and_eq_true] at hw ⊢
  exact ⟨⟨hw.1.1, wfRef_mono hw.1.2 hle⟩, wfRef_mono hw.2 hle⟩

theorem wfRef_ext : ∀ {f : Nat} {h h' : Heap K V} {r : Option Nat},
    HeapExt h h' → wfRef f h r = true → wfRef f h' r = true := by
  intro f
  induction f with
  | zero =>
    intro h h' r hext hw
    cases r with
    | none => rfl
    | some cid => exact absurd hw (by simp [wfRef])
  | succ f' ih =>
    intro h h' r hext hw
    cases r with
    | none => rfl
    | some cid =>
      unfold wfRef at hw ⊢
      split at hw
      · rename_i child hlook
        rw [lookup_ext hext hlook]
        simp only [Bool.and_eq_true] at hw ⊢
        exact ⟨⟨hw.1.1, ih hext hw.1.2⟩, ih hext hw.2⟩
      · exact Bool.noConfusion hw

theorem wfNode_ext {f : Nat} {h h' : Heap K V} {nd : HNode K V}
    (hext : HeapExt h h') (hw : wfNode f h nd = true) :
    wfNode f h' nd = true := by
  simp only [wfNode, Bool.and_eq_true] at hw ⊢
  exact ⟨⟨hw.1.1, wfRef_ext hext hw.1.2⟩, wfRef_ext hext hw.2⟩

theorem lookup_alloc (h : Heap K V) (c : Cell K V) :
    (h ++ [c])[h.length]? = some c := by
  rw [List.getElem?_append_right (Nat.le_refl _)]
  simp

/-- After allocating a well-formed resident node, the new reference is
well-formed. -/
theorem wfRef_alloc {f : Nat} {h : Heap K V} {nd : HNode K V}
    (hw : wfNode f h nd = true) :
    wfRef (f + 1) (h ++ [Cell.memNode nd]) (some h.length) = true := by
  have hext : HeapExt h (h ++ [Cell.memNode nd]) := ⟨_, rfl⟩
  have hw' := wfNode_ext hext hw
  simp only [wfNode, Bool.and_eq_true] at hw'
  unfold wfRef
  rw [lookup_alloc]
  simp [hw'.1.1, hw'.1.2, hw'.2]

theorem readRefH_mem {h : Heap K V} {cid : Nat} {child : HNode K V}
    (hlook : h[cid]? = some (.memNode child)) (store : StoreRead K V) :
    readRefH store h (some cid) = .ok (some child) := by
  simp [readRefH, hlook]

/-- Reading a well-formed reference succeeds with the same result for every
store (the null store included): the reference is `Empty` or resident. -/
theorem readRefH_wf {f : Nat} {h : Heap K V} {r : Option Nat}
    (hw : wfRef f h r = true) :
    (r = none ∧ ∀ store : StoreRead K V, readRefH store h r = .ok none) ∨
    (∃ cid child f', r = some cid ∧ f = f' + 1 ∧
      h[cid]? = some (.memNode child) ∧ wfNode f' h child = true ∧
      ∀ store : StoreRead K V, readRefH store h r = .ok (some child)) := by
  cases r with
  | none => exact Or.inl ⟨rfl, fun _ => rfl⟩
  | some cid =>
    obtain ⟨f', child, rfl, hlook, hchild⟩ := wfRef_some hw
    exact Or.inr ⟨cid, child, f', rfl, rfl, hlook, hchild,
      readRefH_mem hlook⟩

/-- The height a read contributes: 0 for `Empty`, the stored height (which is
nonnegative under well-formedness) otherwise. -/
theorem wfRef_height {f : Nat} {h : Heap K V} {r : Option Nat}
    (hw : wfRef f h r = true) :
    (r = none) ∨ (∃ cid child, r = some cid ∧
      h[cid]? = some (.memNode child) ∧ 0 ≤ child.height) := by
  rcases readRefH_wf hw with ⟨hr, _⟩ | ⟨cid, child, f', hr, _, hlook, hchild, _⟩
  · exact Or.inl hr
  · refine Or.inr ⟨cid, child, hr, hlook, ?_⟩
    simp only [wfNode, Bool.and_eq_true, decide_eq_true_eq] at hchild
    exact hchild.1.1

/-- Reading a well-formed reference: one store-independent result whose
contributed height (`Node::get_height`) is nonnegative, and zero when the
reference is `Empty`. -/
theorem readRefH_wf2 {f : Nat} {h : Heap K V} {r : Option Nat}
    (hw : wfRef f h r = true) :
    ∃ o, (∀ store : StoreRead K V, readRefH store h r = .ok o) ∧
      0 ≤ getHeightH o ∧ (r = none → getHeightH o = 0) := by
  rcases readRefH_wf hw with ⟨rfl, hrd⟩ |
    ⟨cid, child, f', rfl, _, hlook, hchild, hrd⟩
  · exact ⟨none, hrd, by simp [getHeightH], fun _ => rfl⟩
  · refine ⟨some child, hrd, ?_, fun hc => Option.noConfusion hc⟩
    simp only [wfNode, Bool.and_eq_true, decide_eq_true_eq] at hchild
    simpa [getHeightH] using hchild.1.1

/-- `update_height` on a well-formed node: succeeds identically for every
store; the result keeps all fields but the height, the new height is at
least 1, and the sign of the returned balance factor tells which child must
be non-`Empty`. -/
theorem updateHeightH_wf {f : Nat} {h : Heap K V} {nd : HNode K V}
    (hw : wfNode f h nd = true) :
    ∃ (nd2 : HNode K V) (bf : Int),
      (∀ store : StoreRead K V, updateHeightH store h nd = .ok (nd2, bf)) ∧
      nd2.key = nd.key ∧ nd2.value = nd.value ∧ nd2.left = nd.left ∧
      nd2.right = nd.right ∧ nd2.memo = nd.memo ∧ 1 ≤ nd2.height ∧
      (bf < 0 → nd.right ≠ none) ∧ (0 < bf → nd.left ≠ none) := by
  simp only [wfNode, Bool.and_eq_true] at hw
  obtain ⟨⟨_, hwl⟩, hwr⟩ := hw
  obtain ⟨lo, hrl, hl0, hlnone⟩ := readRefH_wf2 hwl
  obtain ⟨ro, hrr, hr0, hrnone⟩ := readRefH_wf2 hwr
  refine ⟨{ nd with
      height := max (getHeightH lo) (getHeightH ro) + 1 },
    getHeightH lo - getHeightH ro,
    fun store => by simp only [updateHeightH, hrl store, hrr store],
    rfl, rfl, rfl, rfl, rfl, by simp; omega, ?_, ?_⟩
  · intro hbf hc
    have := hrnone hc
    omega
  · intro hbf hc
    have := hlnone hc
    omega

/-- `balance_factor` on a well-formed node: one store-independent result whose
sign tells which child must be non-`Empty`. -/
theorem balanceFactorH_wf {f : Nat} {h : Heap K V} {nd : HNode K V}
    (hw : wfNode f h nd = true) :
    ∃ bf : Int, (∀ store : StoreRead K V, balanceFactorH store h nd = .ok bf) ∧
      (bf < 0 → nd.right ≠ none) ∧ (0 < bf → nd.left ≠ none) := by
  simp only [wfNode, Bool.and_eq_true] at hw
  obtain ⟨⟨_, hwl⟩, hwr⟩ := hw
  obtain ⟨lo, hrl, hl0, hlnone⟩ := readRefH_wf2 hwl
  obtain ⟨ro, hrr, hr0, hrnone⟩ := readRefH_wf2 hwr
  refine ⟨getHeightH lo - getHeightH ro,
    fun store => by simp only [balanceFactorH, hrl store, hrr store], ?_, ?_⟩
  · intro hbf hc
    have := hrnone hc
    omega
  · intro hbf hc
    have := hlnone hc
    omega

/-- `rotate_right` on a well-formed node with a non-empty left child:
succeeds identically for every store, only allocates, and returns a
well-formed node. -/
theorem rotateRightH_wf {f : Nat} {h : Heap K V} {nd : HNode K V}
    (hw : wfNode f h nd = true) (hne : nd.left ≠ none) :
    ∃ (h' : Heap K V) (nt : HNode K V),
      (∀ store : StoreRead K V, rotateRightH store h nd = .ok (h', nt)) ∧
      HeapExt h h' ∧ wfNode (f + 1) h' nt = true := by
  have hw0 := hw
  simp only [wfNode, Bool.and_eq_true, decide_eq_true_eq] at hw0
  obtain ⟨⟨h0, hwl⟩, hwr⟩ := hw0
  rcases readRefH_wf hwl with ⟨hnone, _⟩ |
    ⟨cidl, left, f', hleq, hfeq, hlook, hwleft, hread⟩
  · exact absurd hnone hne
  have hwleft' := hwleft
  simp only [wfNode, Bool.and_eq_true, decide_eq_true_eq] at hwleft'
  obtain ⟨⟨hl0, hwll⟩, hwlr⟩ := hwleft'
  have hf' : f' ≤ f := by omega
  have hwc1 : wfNode f h { nd with left := left.right, memo := none } = true := by
    simp only [wfNode, Bool.and_eq_true, decide_eq_true_eq]
    exact ⟨⟨h0, wfRef_mono hwlr hf'⟩, hwr⟩
  obtain ⟨newRight, bf1, hupd1, hk1, hv1, hl1, hr1, hm1, hh1, _, _⟩ :=
    updateHeightH_wf hwc1
  have hwnR : wfNode f h newRight = true := by
    simp only [wfNode, Bool.and_eq_true, decide_eq_true_eq]
    refine ⟨⟨by omega, ?_⟩, ?_⟩
    · rw [hl1]; exact wfRef_mono hwlr hf'
    · rw [hr1]; exact hwr
  have hext1 : HeapExt h (h ++ [Cell.memNode newRight]) := ⟨_, rfl⟩
  have hcell : wfRef (f + 1) (h ++ [Cell.memNode newRight])
      (some h.length) = true := wfRef_alloc hwnR
  have hwc2 : wfNode (f + 1) (h ++ [Cell.memNode newRight])
      { left with right := some h.length, memo := none } = true := by
    simp only [wfNode, Bool.and_eq_true, decide_eq_true_eq]
    exact ⟨⟨hl0, wfRef_mono (wfRef_ext hext1 hwll) (by omega)⟩, hcell⟩
  obtain ⟨newTop, bf2, hupd2, hk2, hv2, hl2, hr2, hm2, hh2, _, _⟩ :=
    updateHeightH_wf hwc2
  refine ⟨h ++ [Cell.memNode newRight], newTop, fun store => ?_, hext1, ?_⟩
  · unfold rotateRightH
    simp only [hread store, hupd1 store, alloc, hupd2 store]
  · simp only [wfNode, Bool.and_eq_true, decide_eq_true_eq]
    refine ⟨⟨by omega, ?_⟩, ?_⟩
    · rw [hl2]; exact wfRef_mono (wfRef_ext hext1 hwll) (by omega)
    · rw [hr2]; exact hcell

/-- `rotate_left`, symmetric to `rotateRightH_wf`. -/
theorem rotateLeftH_wf {f : Nat} {h : Heap K V} {nd : HNode K V}
    (hw : wfNode f h nd = true) (hne : nd.right ≠ none) :
    ∃ (h' : Heap K V) (nt : HNode K V),
      (∀ store : StoreRead K V, rotateLeftH store h nd = .ok (h', nt)) ∧
      HeapExt h h' ∧ wfNode (f + 1) h' nt = true := by
  have hw0 := hw
  simp only [wfNode, Bool.and_eq_true, decide_eq_true_eq] at hw0
  obtain ⟨⟨h0, hwl⟩, hwr⟩ := hw0
  rcases readRefH_wf hwr with ⟨hnone, _⟩ |
    ⟨cidr, right, f', hreq, hfeq, hlook, hwright, hread⟩
  · exact absurd hnone hne
  have hwright' := hwright
  simp only [wfNode, Bool.and_eq_true, decide_eq_true_eq] at hwright'
  obtain ⟨⟨hr0, hwrl⟩, hwrr⟩ := hwright'
  have hf' : f' ≤ f := by omega
  have hwc1 : wfNode f h { nd with right := right.left, memo := none } = true := by
    simp only [wfNode, Bool.and_eq_true, decide_eq_true_eq]
    exact ⟨⟨h0, hwl⟩, wfRef_mono hwrl hf'⟩
  obtain ⟨newLeft, bf1, hupd1, hk1, hv1, hl1, hr1, hm1, hh1, _, _⟩ :=
    updateHeightH_wf hwc1
  have hwnL : wfNode f h newLeft = true := by
    simp only [wfNode, Bool.and_eq_true, decide_eq_true_eq]
    refine ⟨⟨by omega, ?_⟩, ?_⟩
    · rw [hl1]; exact hwl
    · rw [hr1]; exact wfRef_mono hwrl hf'
  have hext1 : HeapExt h (h ++ [Cell.memNode newLeft]) := ⟨_, rfl⟩
  have hcell : wfRef (f + 1) (h ++ [Cell.memNode newLeft])
      (some h.length) = true := wfRef_alloc hwnL
  have hwc2 : wfNode (f + 1) (h ++ [Cell.memNode newLeft])
      { right with left := some h.length, memo := none } = true := by
    simp only [wfNode, Bool.and_eq_true, decide_eq_true_eq]
    exact ⟨⟨hr0, hcell⟩, wfRef_mono (wfRef_ext hext1 hwrr) (by omega)⟩
  obtain ⟨newTop, bf2, hupd2, hk2, hv2, hl2, hr2, hm2, hh2, _, _⟩ :=
    updateHeightH_wf hwc2
  refine ⟨h ++ [Cell.memNode newLeft], newTop, fun store => ?_, hext1, ?_⟩
  · unfold rotateLeftH
    simp only [hread store, hupd1 store, alloc, hupd2 store]
  · simp only [wfNode, Bool.and_eq_true, decide_eq_true_eq]
    refine ⟨⟨by omega, ?_⟩, ?_⟩
    · rw [hl2]; exact hcell
    · rw [hr2]; exact wfRef_mono (wfRef_ext hext1 hwrr) (by omega)

/-- `rotate_right_left` on a well-formed node whose right child exists and
itself has a left child. -/
theorem rotateRightLeftH_wf {f : Nat} {h : Heap K V} {nd : HNode K V}
    (hw : wfNode f h nd = true) (hne : nd.right ≠ none)
    (hcl : ∀ cid child, nd.right = some cid →
      h[cid]? = some (.memNode child) → child.left ≠ none) :
    ∃ (h' : Heap K V) (nt : HNode K V),
      (∀ store : StoreRead K V, rotateRightLeftH store h nd = .ok (h', nt)) ∧
      HeapExt h h' ∧ wfNode (f + 1) h' nt = true := by
  have hw0 := hw
  simp only [wfNode, Bool.and_eq_true, decide_eq_true_eq] at hw0
  obtain ⟨⟨h0, hwl⟩, hwr⟩ := hw0
  rcases readRefH_wf hwr with ⟨hnone, _⟩ |
    ⟨cidr, right, f', hreq, hfeq, hlook, hwright, hread⟩
  · exact absurd hnone hne
  obtain ⟨h1, newTop, hrot, hext1, hwTop⟩ :=
    rotateRightH_wf hwright (hcl cidr right hreq hlook)
  have hfT : f' + 1 = f := by omega
  rw [hfT] at hwTop
  have hwTop' := hwTop
  simp only [wfNode, Bool.and_eq_true, decide_eq_true_eq] at hwTop'
  obtain ⟨⟨hT0, hwTl⟩, hwTr⟩ := hwTop'
  have hwc1 : wfNode f h1 { nd with right := newTop.left, memo := none } = true := by
    simp only [wfNode, Bool.and_eq_true, decide_eq_true_eq]
    exact ⟨⟨h0, wfRef_ext hext1 hwl⟩, hwTl⟩
  obtain ⟨newLeft, bf1, hupd1, hk1, hv1, hl1, hr1, hm1, hh1, _, _⟩ :=
    updateHeightH_wf hwc1
  have hwnL : wfNode f h1 newLeft = true := by
    simp only [wfNode, Bool.and_eq_true, decide_eq_true_eq]
    refine ⟨⟨by omega, ?_⟩, ?_⟩
    · rw [hl1]; exact wfRef_ext hext1 hwl
    · rw [hr1]; exact hwTl
  have hext2 : HeapExt h1 (h1 ++ [Cell.memNode newLeft]) := ⟨_, rfl⟩
  have hcell : wfRef (f + 1) (h1 ++ [Cell.memNode newLeft])
      (some h1.length) = true := wfRef_alloc hwnL
  have hwc2 : wfNode (f + 1) (h1 ++ [Cell.memNode newLeft])
      { newTop with left := some h1.length } = true := by
    simp only [wfNode, Bool.and_eq_true, decide_eq_true_eq]
    exact ⟨⟨hT0, hcell⟩, wfRef_mono (wfRef_ext hext2 hwTr) (by omega)⟩
  obtain ⟨nt, bf2, hupd2, hk2, hv2, hl2, hr2, hm2, hh2, _, _⟩ :=
    updateHeightH_wf hwc2
  refine ⟨h1 ++ [Cell.memNode newLeft], nt, fun store => ?_,
    heapExt_trans hext1 hext2, ?_⟩
  · unfold rotateRightLeftH
    simp only [hread store, hrot store, hupd1 store, alloc, hupd2 store]
  · simp only [wfNode, Bool.and_eq_true, decide_eq_true_eq]
    refine ⟨⟨by omega, ?_⟩, ?_⟩
    · rw [hl2]; exact hcell
    · rw [hr2]; exact wfRef_mono (wfRef_ext hext2 hwTr) (by omega)

/-- `rotate_left_right`, symmetric. -/
theorem rotateLeftRightH_wf {f : Nat} {h : Heap K V} {nd : HNode K V}
    (hw : wfNode f h nd = true) (hne : nd.left ≠ none)
    (hcr : ∀ cid child, nd.left = some cid →
      h[cid]? = some (.memNode child) → child.right ≠ none) :
    ∃ (h' : Heap K V) (nt : HNode K V),
      (∀ store : StoreRead K V, rotateLeftRightH store h nd = .ok (h', nt)) ∧
      HeapExt h h' ∧ wfNode (f + 1) h' nt = true := by
  have hw0 := hw
  simp only [wfNode, Bool.and_eq_true, decide_eq_true_eq] at hw0
  obtain ⟨⟨h0, hwl⟩, hwr⟩ := hw0
  rcases readRefH_wf hwl with ⟨hnone, _⟩ |
    ⟨cidl, left, f', hleq, hfeq, hlook, hwleft, hread⟩
  · exact absurd hnone hne
  obtain ⟨h1, newTop, hrot, hext1, hwTop⟩ :=
    rotateLeftH_wf hwleft (hcr cidl left hleq hlook)
  have hfT : f' + 1 = f := by omega
  rw [hfT] at hwTop
  have hwTop' := hwTop
  simp only [wfNode, Bool.and_eq_true, decide_eq_true_eq] at hwTop'
  obtain ⟨⟨hT0, hwTl⟩, hwTr⟩ := hwTop'
  have hwc1 : wfNode f h1 { nd with left := newTop.right, memo := none } = true := by
    simp only [wfNode, Bool.and_eq_true, decide_eq_true_eq]
    exact ⟨⟨h0, hwTr⟩, wfRef_ext hext1 hwr⟩
  obtain ⟨newRight, bf1, hupd1, hk1, hv1, hl1, hr1, hm1, hh1, _, _⟩ :=
    updateHeightH_wf hwc1
  have hwnR : wfNode f h1 newRight = true := by
    simp only [wfNode, Bool.and_eq_true, decide_eq_true_eq]
    refine ⟨⟨by omega, ?_⟩, ?_⟩
    · rw [hl1]; exact hwTr
    · rw [hr1]; exact wfRef_ext hext1 hwr
  have hext2 : HeapExt h1 (h1 ++ [Cell.memNode newRight]) := ⟨_, rfl⟩
  have hcell : wfRef (f + 1) (h1 ++ [Cell.memNode newRight])
      (some h1.length) = true := wfRef_alloc hwnR
  have hwc2 : wfNode (f + 1) (h1 ++ [Cell.memNode newRight])
      { newTop with right := some h1.length } = true := by
    simp only [wfNode, Bool.and_eq_true, decide_eq_true_eq]
    exact ⟨⟨hT0, wfRef_mono (wfRef_ext hext2 hwTl) (by omega)⟩, hcell⟩
  obtain ⟨nt, bf2, hupd2, hk2, hv2, hl2, hr2, hm2, hh2, _, _⟩ :=
    updateHeightH_wf hwc2
  refine ⟨h1 ++ [Cell.memNode newRight], nt, fun store => ?_,
    heapExt_trans hext1 hext2, ?_⟩
  · unfold rotateLeftRightH
    simp only [hread store, hrot store, hupd1 store, alloc, hupd2 store]
  · simp only [wfNode, Bool.and_eq_true, decide_eq_true_eq]
    refine ⟨⟨by omega, ?_⟩, ?_⟩
    · rw [hl2]; exact wfRef_mono (wfRef_ext hext2 hwTl) (by omega)
    · rw [hr2]; exact hcell

/-- `Node::balance` on a well-formed node: succeeds identically for every
store (no unwrap panic, no store read), only allocates, and returns a
well-formed node. -/
theorem balanceH_wf {f : Nat} {h : Heap K V} {nd : HNode K V}
    (hw : wfNode f h nd = true) :
    ∃ (h' : Heap K V) (nd' : HNode K V),
      (∀ store : StoreRead K V, balanceH store h nd = .ok (h', nd')) ∧
      HeapExt h h' ∧ wfNode (f + 1) h' nd' = true := by
  have hw0 := hw
  simp only [wfNode, Bool.and_eq_true, decide_eq_true_eq] at hw0
  obtain ⟨⟨h0, hwl⟩, hwr⟩ := hw0
  obtain ⟨s, bf, hupd, hk, hv, hl, hr, hm, hh, hbfr, hbfl⟩ :=
    updateHeightH_wf hw
  have hws : wfNode f h s = true := by
    simp only [wfNode, Bool.and_eq_true, decide_eq_true_eq]
    refine ⟨⟨by omega, ?_⟩, ?_⟩
    · rw [hl]; exact hwl
    · rw [hr]; exact hwr
  by_cases hbf1 : bf < -1
  · have hsne : s.right ≠ none := by rw [hr]; exact hbfr (by omega)
    have hwsr : wfRef f h s.right = true := by rw [hr]; exact hwr
    rcases readRefH_wf hwsr with ⟨hnone, _⟩ |
      ⟨cidr, rc, f', hreq, hfeq, hlook, hwrc, hread⟩
    · exact absurd hnone hsne
    obtain ⟨rbf, hbfq, hrbneg, hrbpos⟩ := balanceFactorH_wf hwrc
    by_cases hrb : rbf > 0
    · have hcl : ∀ cid child, s.right = some cid →
          h[cid]? = some (.memNode child) → child.left ≠ none := by
        intro cid child hcid hlookc
        rw [hreq] at hcid
        injection hcid with hcid'
        subst hcid'
        rw [hlook] at hlookc
        injection hlookc with hc
        injection hc with hc2
        subst hc2
        exact hrbpos hrb
      obtain ⟨h', nt, hrot, hext, hwn⟩ := rotateRightLeftH_wf hws hsne hcl
      refine ⟨h', nt, fun store => ?_, hext, hwn⟩
      unfold balanceH
      simp only [hupd store, if_pos hbf1, hread store, hbfq store, if_pos hrb]
      exact hrot store
    · obtain ⟨h', nt, hrot, hext, hwn⟩ := rotateLeftH_wf hws hsne
      refine ⟨h', nt, fun store => ?_, hext, hwn⟩
      unfold balanceH
      simp only [hupd store, if_pos hbf1, hread store, hbfq store, if_neg hrb]
      exact hrot store
  · by_cases hbf2 : bf > 1
    · have hsne : s.left ≠ none := by rw [hl]; exact hbfl (by omega)
      have hwsl : wfRef f h s.left = true := by rw [hl]; exact hwl
      rcases readRefH_wf hwsl with ⟨hnone, _⟩ |
        ⟨cidl, lc, f', hleq2, hfeq, hlook, hwlc, hread⟩
      · exact absurd hnone hsne
      obtain ⟨lbf, hbfq, hlbneg, hlbpos⟩ := balanceFactorH_wf hwlc
      by_cases hlb : lbf < 0
      · have hcr : ∀ cid child, s.left = some cid →
            h[cid]? = some (.memNode child) → child.right ≠ none := by
          intro cid child hcid hlookc
          rw [hleq2] at hcid
          injection hcid with hcid'
          subst hcid'
          rw [hlook] at hlookc
          injection hlookc with hc
          injection hc with hc2
          subst hc2
          exact hlbneg hlb
        obtain ⟨h', nt, hrot, hext, hwn⟩ := rotateLeftRightH_wf hws hsne hcr
        refine ⟨h', nt, fun store => ?_, hext, hwn⟩
        unfold balanceH
        simp only [hupd store, if_neg hbf1, if_pos hbf2, hread store,
          hbfq store, if_pos hlb]
        exact hrot store
      · obtain ⟨h', nt, hrot, hext, hwn⟩ := rotateRightH_wf hws hsne
        refine ⟨h', nt, fun store => ?_, hext, hwn⟩
        unfold balanceH
        simp only [hupd store, if_neg hbf1, if_pos hbf2, hread store,
          hbfq store, if_neg hlb]
        exact hrot store
    · refine ⟨h, s, fun store => ?_, heapExt_refl h,
        wfNode_mono hws (by omega)⟩
      unfold balanceH
      simp only [hupd store, if_neg hbf1, if_neg hbf2]

/-- One-step unfolding of `doInsertH` at successor fuel (allocation
inlined). -/
theorem doInsertH_succ [LinearOrder K] (f : Nat) (store : StoreRead K V)
    (h : Heap K V) (nd : HNode K V) (k : K) (v : V) (ed : Bool) :
    doInsertH (f + 1) store h nd k v ed =
      match AvlPure.cmp3 k nd.key with
      | .lt =>
        match readRefH store h nd.left with
        | .error e => .error e
        | .ok none =>
          balanceH store (h ++ [Cell.memNode (newNodeH k v)])
            { nd with left := some h.length }
        | .ok (some child) =>
          match doInsertH f store h
              (if ed then child else { child with memo := none }) k v ed with
          | .error e => .error e
          | .ok (h1, node1) =>
            balanceH store (h1 ++ [Cell.memNode node1])
              { nd with left := some h1.length }
      | .eq => balanceH store h { nd with value := v }
      | .gt =>
        match readRefH store h nd.right with
        | .error e => .error e
        | .ok none =>
          balanceH store (h ++ [Cell.memNode (newNodeH k v)])
            { nd with right := some h.length }
        | .ok (some child) =>
          match doInsertH f store h
              (if ed then child else { child with memo := none }) k v ed with
          | .error e => .error e
          | .ok (h1, node1) =>
            balanceH store (h1 ++ [Cell.memNode node1])
              { nd with right := some h1.length } := rfl

/-- `do_insert` on a well-formed node of a purely in-memory tree, with fuel
one more than the well-formedness depth: succeeds identically for every
store, only allocates, and returns a well-formed node. -/
theorem doInsertH_wf [LinearOrder K] :
    ∀ (f : Nat) {h : Heap K V} {nd : HNode K V} (k : K) (v : V) (ed : Bool),
    wfNode f h nd = true →
    ∃ (h' : Heap K V) (nd' : HNode K V),
      (∀ store : StoreRead K V,
        doInsertH (f + 1) store h nd k v ed = .ok (h', nd')) ∧
      HeapExt h h' ∧ ∃ g, wfNode g h' nd' = true := by
  intro f
  induction f with
  | zero =>
    intro h nd k v ed hw
    have hw0 := hw
    simp only [wfNode, Bool.and_eq_true, decide_eq_true_eq] at hw0
    obtain ⟨⟨h0, hwl⟩, hwr⟩ := hw0
    have hleaf : wfNode 0 h (newNodeH k v) = true := by
      simp [wfNode, newNodeH, wfRef]
    rcases hcmp : AvlPure.cmp3 k nd.key with _ | _ | _
    · rcases readRefH_wf hwl with ⟨hlnone, hlread⟩ |
        ⟨_, _, f', _, hfeq, _, _, _⟩
      · have hext1 : HeapExt h (h ++ [Cell.memNode (newNodeH k v)]) := ⟨_, rfl⟩
        have hcell := wfRef_alloc hleaf
        have hwc : wfNode 1 (h ++ [Cell.memNode (newNodeH k v)])
            { nd with left := some h.length } = true := by
          simp only [wfNode, Bool.and_eq_true, decide_eq_true_eq]
          exact ⟨⟨h0, hcell⟩, wfRef_mono (wfRef_ext hext1 hwr) (by omega)⟩
        obtain ⟨h2, nd2, hbal, hext2, hwn2⟩ := balanceH_wf hwc
        refine ⟨h2, nd2, fun store => ?_, heapExt_trans hext1 hext2,
          ⟨2, hwn2⟩⟩
        rw [doInsertH_succ]
        simp only [hcmp, hlread store]
        exact hbal store
      · omega
    · have hwc : wfNode 0 h { nd with value := v } = true := hw
      obtain ⟨h2, nd2, hbal, hext2, hwn2⟩ := balanceH_wf hwc
      refine ⟨h2, nd2, fun store => ?_, hext2, ⟨1, hwn2⟩⟩
      rw [doInsertH_succ]
      simp only [hcmp]
      exact hbal store
    · rcases readRefH_wf hwr with ⟨hrnone, hrread⟩ |
        ⟨_, _, f', _, hfeq, _, _, _⟩
      · have hext1 : HeapExt h (h ++ [Cell.memNode (newNodeH k v)]) := ⟨_, rfl⟩
        have hcell := wfRef_alloc hleaf
        have hwc : wfNode 1 (h ++ [Cell.memNode (newNodeH k v)])
            { nd with right := some h.length } = true := by
          simp only [wfNode, Bool.and_eq_true, decide_eq_true_eq]
          exact ⟨⟨h0, wfRef_mono (wfRef_ext hext1 hwl) (by omega)⟩, hcell⟩
        obtain ⟨h2, nd2, hbal, hext2, hwn2⟩ := balanceH_wf hwc
        refine ⟨h2, nd2, fun store => ?_, heapExt_trans hext1 hext2,
          ⟨2, hwn2⟩⟩
        rw [doInsertH_succ]
        simp only [hcmp, hrread store]
        exact hbal store
      · omega
  | succ f0 ih =>
    intro h nd k v ed hw
    have hw0 := hw
    simp only [wfNode, Bool.and_eq_true, decide_eq_true_eq] at hw0
    obtain ⟨⟨h0, hwl⟩, hwr⟩ := hw0
    have hleaf : wfNode 0 h (newNodeH k v) = true := by
      simp [wfNode, newNodeH, wfRef]
    rcases hcmp : AvlPure.cmp3 k nd.key with _ | _ | _
    · rcases readRefH_wf hwl with ⟨hlnone, hlread⟩ |
        ⟨cid, child, f', hleq, hfeq, hlook, hwchild, hlread⟩
      · have hext1 : HeapExt h (h ++ [Cell.memNode (newNodeH k v)]) := ⟨_, rfl⟩
        have hcell := wfRef_alloc (wfNode_mono hleaf (Nat.zero_le f0))
        have hwc : wfNode (f0 + 1) (h ++ [Cell.memNode (newNodeH k v)])
            { nd with left := some h.length } = true := by
          simp only [wfNode, Bool.and_eq_true, decide_eq_true_eq]
          exact ⟨⟨h0, hcell⟩, wfRef_ext hext1 hwr⟩
        obtain ⟨h2, nd2, hbal, hext2, hwn2⟩ := balanceH_wf hwc
        refine ⟨h2, nd2, fun store => ?_, heapExt_trans hext1 hext2,
          ⟨f0 + 2, hwn2⟩⟩
        rw [doInsertH_succ]
        simp only [hcmp, hlread store]
        exact hbal store
      · have hf' : f' = f0 := by omega
        subst hf'
        have hwchild' : wfNode f' h
            (if ed then child else { child with memo := none }) = true := by
          cases ed <;> exact hwchild
        obtain ⟨h1, nd1, hrec, hext1, g1, hwn1⟩ := ih k v ed hwchild'
        have hext2 : HeapExt h1 (h1 ++ [Cell.memNode nd1]) := ⟨_, rfl⟩
        have hcell := wfRef_alloc hwn1
        have hwc : wfNode (max (f' + 1) g1 + 1) (h1 ++ [Cell.memNode nd1])
            { nd with left := some h1.length } = true := by
          simp only [wfNode, Bool.and_eq_true, decide_eq_true_eq]
          refine ⟨⟨h0, wfRef_mono hcell (by omega)⟩, ?_⟩
          exact wfRef_mono
            (wfRef_ext (heapExt_trans hext1 hext2) hwr) (by omega)
        obtain ⟨h2, nd2, hbal, hext3, hwn2⟩ := balanceH_wf hwc
        refine ⟨h2, nd2, fun store => ?_,
          heapExt_trans hext1 (heapExt_trans hext2 hext3), ⟨_, hwn2⟩⟩
        rw [doInsertH_succ]
        simp only [hcmp, hlread store, hrec store]
        exact hbal store
    · have hwc : wfNode (f0 + 1) h { nd with value := v } = true := hw
      obtain ⟨h2, nd2, hbal, hext2, hwn2⟩ := balanceH_wf hwc
      refine ⟨h2, nd2, fun store => ?_, hext2, ⟨_, hwn2⟩⟩
      rw [doInsertH_succ]
      simp only [hcmp]
      exact hbal store
    · rcases readRefH_wf hwr with ⟨hrnone, hrread⟩ |
        ⟨cid, child, f', hreq, hfeq, hlook, hwchild, hrread⟩
      · have hext1 : HeapExt h (h ++ [Cell.memNode (newNodeH k v)]) := ⟨_, rfl⟩
        have hcell := wfRef_alloc (wfNode_mono hleaf (Nat.zero_le f0))
        have hwc : wfNode (f0 + 1) (h ++ [Cell.memNode (newNodeH k v)])
            { nd with right := some h.length } = true := by
          simp only [wfNode, Bool.and_eq_true, decide_eq_true_eq]
          exact ⟨⟨h0, wfRef_ext hext1 hwl⟩, hcell⟩
        obtain ⟨h2, nd2, hbal, hext2, hwn2⟩ := balanceH_wf hwc
        refine ⟨h2, nd2, fun store => ?_, heapExt_trans hext1 hext2,
          ⟨f0 + 2, hwn2⟩⟩
        rw [doInsertH_succ]
        simp only [hcmp, hrread store]
        exact hbal store
      · have hf' : f' = f0 := by omega
        subst hf'
        have hwchild' : wfNode f' h
            (if ed then child else { child with memo := none }) = true := by
          cases ed <;> exact hwchild
        obtain ⟨h1, nd1, hrec, hext1, g1, hwn1⟩ := ih k v ed hwchild'
        have hext2 : HeapExt h1 (h1 ++ [Cell.memNode nd1]) := ⟨_, rfl⟩
        have hcell := wfRef_alloc hwn1
        have hwc : wfNode (max (f' + 1) g1 + 1) (h1 ++ [Cell.memNode nd1])
            { nd with right := some h1.length } = true := by
          simp only [wfNode, Bool.and_eq_true, decide_eq_true_eq]
          refine ⟨⟨h0, ?_⟩, wfRef_mono hcell (by omega)⟩
          exact wfRef_mono
            (wfRef_ext (heapExt_trans hext1 hext2) hwl) (by omega)
        obtain ⟨h2, nd2, hbal, hext3, hwn2⟩ := balanceH_wf hwc
        refine ⟨h2, nd2, fun store => ?_,
          heapExt_trans hext1 (heapExt_trans hext2 hext3), ⟨_, hwn2⟩⟩
        rw [doInsertH_succ]
        simp only [hcmp, hrread store, hrec store]
        exact hbal store

/-- One-step unfolding of `deleteNH` at successor fuel (allocation
inlined). -/
theorem deleteNH_succ [LinearOrder K] (f : Nat) (store : StoreRead K V)
    (h : Heap K V) (nd : HNode K V) (k : K) :
    deleteNH (f + 1) store h nd k =
      match AvlPure.cmp3 k nd.key with
      | .lt =>
        match readRefH store h nd.left with
        | .error e => .error e
        | .ok none =>
          match balanceH store h { nd with left := none, memo := none } with
          | .error e => .error e
          | .ok (h1, n1) => .ok (h1, some n1)
        | .ok (some child) =>
          match deleteNH f store h child k with
          | .error e => .error e
          | .ok (h1, none) =>
            match balanceH store h1 { nd with left := none, memo := none } with
            | .error e => .error e
            | .ok (h2, n1) => .ok (h2, some n1)
          | .ok (h1, some child1) =>
            match balanceH store (h1 ++ [Cell.memNode child1])
                { nd with left := some h1.length, memo := none } with
            | .error e => .error e
            | .ok (h2, n1) => .ok (h2, some n1)
      | .eq => .ok (h, none)
      | .gt =>
        match readRefH store h nd.right with
        | .error e => .error e
        | .ok none =>
          match balanceH store h { nd with right := none, memo := none } with
          | .error e => .error e
          | .ok (h1, n1) => .ok (h1, some n1)
        | .ok (some child) =>
          match deleteNH f store h child k with
          | .error e => .error e
          | .ok (h1, none) =>
            match balanceH store h1 { nd with right := none, memo := none } with
            | .error e => .error e
            | .ok (h2, n1) => .ok (h2, some n1)
          | .ok (h1, some child1) =>
            match balanceH store (h1 ++ [Cell.memNode child1])
                { nd with right := some h1.length, memo := none } with
            | .error e => .error e
            | .ok (h2, n1) => .ok (h2, some n1) := rfl

/-- `Node::delete` on a well-formed node of a purely in-memory tree:
succeeds identically for every store, only allocates, and any returned node
is well-formed. -/
theorem deleteNH_wf [LinearOrder K] :
    ∀ (f : Nat) {h : Heap K V} {nd : HNode K V} (k : K),
    wfNode f h nd = true →
    ∃ (h' : Heap K V) (res : Option (HNode K V)),
      (∀ store : StoreRead K V, deleteNH (f + 1) store h nd k = .ok (h', res)) ∧
      HeapExt h h' ∧
      ∀ nd1, res = some nd1 → ∃ g, wfNode g h' nd1 = true := by
  intro f
  induction f with
  | zero =>
    intro h nd k hw
    have hw0 := hw
    simp only [wfNode, Bool.and_eq_true, decide_eq_true_eq] at hw0
    obtain ⟨⟨h0, hwl⟩, hwr⟩ := hw0
    rcases hcmp : AvlPure.cmp3 k nd.key with _ | _ | _
    · rcases readRefH_wf hwl with ⟨hlnone, hlread⟩ | ⟨_, _, f', _, hfeq, _, _, _⟩
      · have hwc : wfNode 0 h { nd with left := none, memo := none } = true := by
          simp only [wfNode, Bool.and_eq_true, decide_eq_true_eq]
          exact ⟨⟨h0, rfl⟩, hwr⟩
        obtain ⟨h2, n1, hbal, hext, hwn⟩ := balanceH_wf hwc
        refine ⟨h2, some n1, fun store => ?_, hext, ?_⟩
        · rw [deleteNH_succ]
          simp only [hcmp, hlread store, hbal store]
        · intro nd1 heq
          injection heq with heq'
          exact heq' ▸ ⟨1, hwn⟩
      · omega
    · exact ⟨h, none, fun store => by rw [deleteNH_succ]; simp only [hcmp],
        heapExt_refl h, fun nd1 heq => Option.noConfusion heq⟩
    · rcases readRefH_wf hwr with ⟨hrnone, hrread⟩ | ⟨_, _, f', _, hfeq, _, _, _⟩
      · have hwc : wfNode 0 h { nd with right := none, memo := none } = true := by
          simp only [wfNode, Bool.and_eq_true, decide_eq_true_eq]
          exact ⟨⟨h0, hwl⟩, rfl⟩
        obtain ⟨h2, n1, hbal, hext, hwn⟩ := balanceH_wf hwc
        refine ⟨h2, some n1, fun store => ?_, hext, ?_⟩
        · rw [deleteNH_succ]
          simp only [hcmp, hrread store, hbal store]
        · intro nd1 heq
          injection heq with heq'
          exact heq' ▸ ⟨1, hwn⟩
      · omega
  | succ f0 ih =>
    intro h nd k hw
    have hw0 := hw
    simp only [wfNode, Bool.and_eq_true, decide_eq_true_eq] at hw0
    obtain ⟨⟨h0, hwl⟩, hwr⟩ := hw0
    rcases hcmp : AvlPure.cmp3 k nd.key with _ | _ | _
    · rcases readRefH_wf hwl with ⟨hlnone, hlread⟩ |
        ⟨cid, child, f', hleq, hfeq, hlook, hwchild, hlread⟩
      · have hwc : wfNode (f0 + 1) h { nd with left := none, memo := none } = true := by
          simp only [wfNode, Bool.and_eq_true, decide_eq_true_eq]
          exact ⟨⟨h0, rfl⟩, hwr⟩
        obtain ⟨h2, n1, hbal, hext, hwn⟩ := balanceH_wf hwc
        refine ⟨h2, some n1, fun store => ?_, hext, ?_⟩
        · rw [deleteNH_succ]
          simp only [hcmp, hlread store, hbal store]
        · intro nd1 heq
          injection heq with heq'
          exact heq' ▸ ⟨_, hwn⟩
      · have hf' : f' = f0 := by omega
        subst hf'
        obtain ⟨h1, res1, hrecd, hext1, hresw⟩ := ih k hwchild
        rcases res1 with _ | child1
        · have hwc : wfNode (f' + 1) h1
              { nd with left := none, memo := none } = true := by
            simp only [wfNode, Bool.and_eq_true, decide_eq_true_eq]
            exact ⟨⟨h0, rfl⟩, wfRef_ext hext1 hwr⟩
          obtain ⟨h2, n1, hbal, hext2, hwn⟩ := balanceH_wf hwc
          refine ⟨h2, some n1, fun store => ?_, heapExt_trans hext1 hext2, ?_⟩
          · rw [deleteNH_succ]
            simp only [hcmp, hlread store, hrecd store, hbal store]
          · intro nd1 heq
            injection heq with heq'
            exact heq' ▸ ⟨_, hwn⟩
        · obtain ⟨g1, hwc1⟩ := hresw child1 rfl
          have hext2 : HeapExt h1 (h1 ++ [Cell.memNode child1]) := ⟨_, rfl⟩
          have hcell := wfRef_alloc hwc1
          have hwc : wfNode (max (f' + 1) g1 + 1) (h1 ++ [Cell.memNode child1])
              { nd with left := some h1.length, memo := none } = true := by
            simp only [wfNode, Bool.and_eq_true, decide_eq_true_eq]
            refine ⟨⟨h0, wfRef_mono hcell (by omega)⟩, ?_⟩
            exact wfRef_mono
              (wfRef_ext (heapExt_trans hext1 hext2) hwr) (by omega)
          obtain ⟨h2, n1, hbal, hext3, hwn⟩ := balanceH_wf hwc
          refine ⟨h2, some n1, fun store => ?_,
            heapExt_trans hext1 (heapExt_trans hext2 hext3), ?_⟩
          · rw [deleteNH_succ]
            simp only [hcmp, hlread store, hrecd store, hbal store]
          · intro nd1 heq
            injection heq with heq'
            exact heq' ▸ ⟨_, hwn⟩
    · exact ⟨h, none, fun store => by rw [deleteNH_succ]; simp only [hcmp],
        heapExt_refl h, fun nd1 heq => Option.noConfusion heq⟩
    · rcases readRefH_wf hwr with ⟨hrnone, hrread⟩ |
        ⟨cid, child, f', hreq, hfeq, hlook, hwchild, hrread⟩
      · have hwc : wfNode (f0 + 1) h { nd with right := none, memo := none } = true := by
          simp only [wfNode, Bool.and_eq_true, decide_eq_true_eq]
          exact ⟨⟨h0, hwl⟩, rfl⟩
        obtain ⟨h2, n1, hbal, hext, hwn⟩ := balanceH_wf hwc
        refine ⟨h2, some n1, fun store => ?_, hext, ?_⟩
        · rw [deleteNH_succ]
          simp only [hcmp, hrread store, hbal store]
        · intro nd1 heq
          injection heq with heq'
          exact heq' ▸ ⟨_, hwn⟩
      · have hf' : f' = f0 := by omega
        subst hf'
        obtain ⟨h1, res1, hrecd, hext1, hresw⟩ := ih k hwchild
        rcases res1 with _ | child1
        · have hwc : wfNode (f' + 1) h1
              { nd with right := none, memo := none } = true := by
            simp only [wfNode, Bool.and_eq_true, decide_eq_true_eq]
            exact ⟨⟨h0, wfRef_ext hext1 hwl⟩, rfl⟩
          obtain ⟨h2, n1, hbal, hext2, hwn⟩ := balanceH_wf hwc
          refine ⟨h2, some n1, fun store => ?_, heapExt_trans hext1 hext2, ?_⟩
          · rw [deleteNH_succ]
            simp only [hcmp, hrread store, hrecd store, hbal store]
          · intro nd1 heq
            injection heq with heq'
            exact heq' ▸ ⟨_, hwn⟩
        · obtain ⟨g1, hwc1⟩ := hresw child1 rfl
          have hext2 : HeapExt h1 (h1 ++ [Cell.memNode child1]) := ⟨_, rfl⟩
          have hcell := wfRef_alloc hwc1
          have hwc : wfNode (max (f' + 1) g1 + 1) (h1 ++ [Cell.memNode child1])
              { nd with right := some h1.length, memo := none } = true := by
            simp only [wfNode, Bool.and_eq_true, decide_eq_true_eq]
            refine ⟨⟨h0, ?_⟩, wfRef_mono hcell (by omega)⟩
            exact wfRef_mono
              (wfRef_ext (heapExt_trans hext1 hext2) hwl) (by omega)
          obtain ⟨h2, n1, hbal, hext3, hwn⟩ := balanceH_wf hwc
          refine ⟨h2, some n1, fun store => ?_,
            heapExt_trans hext1 (heapExt_trans hext2 hext3), ?_⟩
          · rw [deleteNH_succ]
            simp only [hcmp, hrread store, hrecd store, hbal store]
          · intro nd1 heq
            injection heq with heq'
            exact heq' ▸ ⟨_, hwn⟩

/-- One-step unfolding of `getNH` at successor fuel. -/
theorem getNH_succ [LinearOrder K] (f : Nat) (store : StoreRead K V)
    (h : Heap K V) (nd : HNode K V) (q : K) :
    getNH (f + 1) store h nd q =
      match AvlPure.cmp3 q nd.key with
      | .lt =>
        match readRefH store h nd.left with
        | .error e => .error e
        | .ok none => .ok none
        | .ok (some child) => getNH f store h child q
      | .eq => .ok (some nd.value)
      | .gt =>
        match readRefH store h nd.right with
        | .error e => .error e
        | .ok none => .ok none
        | .ok (some child) => getNH f store h child q := rfl

/-- `Node::get` on a well-formed node of a purely in-memory tree: one
store-independent successful result. -/
theorem getNH_wf [LinearOrder K] :
    ∀ (f : Nat) {h : Heap K V} {nd : HNode K V} (q : K),
    wfNode f h nd = true →
    ∃ o, ∀ store : StoreRead K V, getNH (f + 1) store h nd q = .ok o := by
  intro f
  induction f with
  | zero =>
    intro h nd q hw
    simp only [wfNode, Bool.and_eq_true, decide_eq_true_eq] at hw
    obtain ⟨⟨h0, hwl⟩, hwr⟩ := hw
    rcases hcmp : AvlPure.cmp3 q nd.key with _ | _ | _
    · rcases readRefH_wf hwl with ⟨hlnone, hlread⟩ | ⟨_, _, f', _, hfeq, _, _, _⟩
      · exact ⟨none, fun store => by
          rw [getNH_succ]; simp only [hcmp, hlread store]⟩
      · omega
    · exact ⟨some nd.value, fun store => by rw [getNH_succ]; simp only [hcmp]⟩
    · rcases readRefH_wf hwr with ⟨hrnone, hrread⟩ | ⟨_, _, f', _, hfeq, _, _, _⟩
      · exact ⟨none, fun store => by
          rw [getNH_succ]; simp only [hcmp, hrread store]⟩
      · omega
  | succ f0 ih =>
    intro h nd q hw
    simp only [wfNode, Bool.and_eq_true, decide_eq_true_eq] at hw
    obtain ⟨⟨h0, hwl⟩, hwr⟩ := hw
    rcases hcmp : AvlPure.cmp3 q nd.key with _ | _ | _
    · rcases readRefH_wf hwl with ⟨hlnone, hlread⟩ |
        ⟨cid, child, f', hleq, hfeq, hlook, hwchild, hlread⟩
      · exact ⟨none, fun store => by
          rw [getNH_succ]; simp only [hcmp, hlread store]⟩
      · have hf' : f' = f0 := by omega
        subst hf'
        obtain ⟨o, hg⟩ := ih q hwchild
        exact ⟨o, fun store => by
          rw [getNH_succ]; simp only [hcmp, hlread store]; exact hg store⟩
    · exact ⟨some nd.value, fun store => by rw [getNH_succ]; simp only [hcmp]⟩
    · rcases readRefH_wf hwr with ⟨hrnone, hrread⟩ |
        ⟨cid, child, f', hreq, hfeq, hlook, hwchild, hrread⟩
      · exact ⟨none, fun store => by
          rw [getNH_succ]; simp only [hcmp, hrread store]⟩
      · have hf' : f' = f0 := by omega
        subst hf'
        obtain ⟨o, hg⟩ := ih q hwchild
        exact ⟨o, fun store => by
          rw [getNH_succ]; simp only [hcmp, hrread store]; exact hg store⟩

/-- `Tree::get` on a well-formed in-memory tree: one store-independent
successful result. -/
theorem treeGetH_wf [LinearOrder K] (f : Nat) {h : Heap K V} {r : Option Nat}
    (q : K) (hw : wfRef f h r = true) :
    ∃ o, ∀ store : StoreRead K V, treeGetH f store h r q = .ok o := by
  rcases readRefH_wf hw with ⟨rfl, hread⟩ |
    ⟨cid, rn, f0, rfl, rfl, hlook, hwrn, hread⟩
  · exact ⟨none, fun store => rfl⟩
  · obtain ⟨o, hg⟩ := getNH_wf f0 q hwrn
    exact ⟨o, fun store => by
      unfold treeGetH; simp only [hread store]; exact hg store⟩

/-- `Tree::insert` on a well-formed in-memory tree: one store-independent
successful result; the heap only grows and the new root is well-formed. -/
theorem treeInsertH_wf [LinearOrder K] (f : Nat) {h : Heap K V}
    {r : Option Nat} (k : K) (v : V) (hw : wfRef f h r = true) :
    ∃ (h' : Heap K V) (r' : Option Nat),
      (∀ store : StoreRead K V, treeInsertH f store h r k v = .ok (h', r')) ∧
      HeapExt h h' ∧ ∃ g, wfRef g h' r' = true := by
  rcases readRefH_wf hw with ⟨rfl, hread⟩ |
    ⟨cid, rn, f0, rfl, rfl, hlook, hwrn, hread⟩
  · have hleaf : wfNode 0 h (newNodeH k v) = true := by
      simp [wfNode, newNodeH, wfRef]
    refine ⟨h ++ [Cell.memNode (newNodeH k v)], some h.length,
      fun store => ?_, ⟨_, rfl⟩, ⟨1, wfRef_alloc hleaf⟩⟩
    unfold treeInsertH
    simp only [hread store, alloc]
  · have hC : wfNode f0 h { rn with memo := none } = true := hwrn
    obtain ⟨h1, nd1, hrec, hext1, g1, hwn1⟩ := doInsertH_wf f0 k v false hC
    refine ⟨h1 ++ [Cell.memNode nd1], some h1.length, fun store => ?_,
      heapExt_trans hext1 ⟨_, rfl⟩, ⟨g1 + 1, wfRef_alloc hwn1⟩⟩
    unfold treeInsertH
    simp only [hread store, hrec store, alloc]

/-- `Tree::insert_mut`, same shape as `treeInsertH_wf`. -/
theorem treeInsertMutH_wf [LinearOrder K] (f : Nat) {h : Heap K V}
    {r : Option Nat} (k : K) (v : V) (hw : wfRef f h r = true) :
    ∃ (h' : Heap K V) (r' : Option Nat),
      (∀ store : StoreRead K V, treeInsertMutH f store h r k v = .ok (h', r')) ∧
      HeapExt h h' ∧ ∃ g, wfRef g h' r' = true := by
  rcases readRefH_wf hw with ⟨rfl, hread⟩ |
    ⟨cid, rn, f0, rfl, rfl, hlook, hwrn, hread⟩
  · have hleaf : wfNode 0 h (newNodeH k v) = true := by
      simp [wfNode, newNodeH, wfRef]
    refine ⟨h ++ [Cell.memNode (newNodeH k v)], some h.length,
      fun store => ?_, ⟨_, rfl⟩, ⟨1, wfRef_alloc hleaf⟩⟩
    unfold treeInsertMutH
    simp only [hread store, alloc]
  · obtain ⟨h1, nd1, hrec, hext1, g1, hwn1⟩ := doInsertH_wf f0 k v true hwrn
    refine ⟨h1 ++ [Cell.memNode nd1], some h1.length, fun store => ?_,
      heapExt_trans hext1 ⟨_, rfl⟩, ⟨g1 + 1, wfRef_alloc hwn1⟩⟩
    unfold treeInsertMutH
    simp only [hread store, hrec store, alloc]

/-- `Tree::delete`, same shape. -/
theorem treeDeleteH_wf [LinearOrder K] (f : Nat) {h : Heap K V}
    {r : Option Nat} (k : K) (hw : wfRef f h r = true) :
    ∃ (h' : Heap K V) (r' : Option Nat),
      (∀ store : StoreRead K V, treeDeleteH f store h r k = .ok (h', r')) ∧
      HeapExt h h' ∧ ∃ g, wfRef g h' r' = true := by
  rcases readRefH_wf hw with ⟨rfl, hread⟩ |
    ⟨cid, rn, f0, rfl, rfl, hlook, hwrn, hread⟩
  · exact ⟨h, none, fun store => rfl, heapExt_refl h, ⟨0, rfl⟩⟩
  · obtain ⟨h1, res, hrecd, hext1, hresw⟩ := deleteNH_wf f0 k hwrn
    rcases res with _ | nd1
    · refine ⟨h1, none, fun store => ?_, hext1, ⟨0, rfl⟩⟩
      unfold treeDeleteH
      simp only [hread store, hrecd store]
    · obtain ⟨g1, hwn1⟩ := hresw nd1 rfl
      refine ⟨h1 ++ [Cell.memNode nd1], some h1.length, fun store => ?_,
        heapExt_trans hext1 ⟨_, rfl⟩, ⟨g1 + 1, wfRef_alloc hwn1⟩⟩
      unfold treeDeleteH
      simp only [hread store, hrecd store, alloc]

end NullStoreLemmas

end AvlHeap

open AvlHeap in
/-- **C10, confirmed.** On a purely in-memory tree (every reachable reference
`Empty` or a resident `MemNode` cell — the situation of every tree this
library constructs, since `Tree::new` uses `NullNodeStore`), the operations
`get`, persistent `insert`, `insert_mut` and `delete` each produce one result
that is *the same for every backing store* — in particular they never invoke
any `NodeStore` method, since any store read would surface the store's answer
— and that result is `Ok`; with the null store, whose `read`, `create` and
`delete` always fail with "not implemented", they therefore still return
`Ok`. -/
theorem C10_in_memory_ops_ignore_store {K V : Type} [LinearOrder K]
    (f : Nat) (h : Heap K V) (r : Option Nat) (hw : wfRef f h r = true) :
    (∀ q, ∃ o, ∀ store : StoreRead K V,
      treeGetH f store h r q = .ok o ∧
      treeGetH f nullStore h r q = .ok o) ∧
    (∀ k v, ∃ p, ∀ store : StoreRead K V,
      treeInsertH f store h r k v = .ok p ∧
      treeInsertH f nullStore h r k v = .ok p) ∧
    (∀ k v, ∃ p, ∀ store : StoreRead K V,
      treeInsertMutH f store h r k v = .ok p ∧
      treeInsertMutH f nullStore h r k v = .ok p) ∧
    (∀ k, ∃ p, ∀ store : StoreRead K V,
      treeDeleteH f store h r k = .ok p ∧
      treeDeleteH f nullStore h r k = .ok p) := by
  refine ⟨fun q => ?_, fun k v => ?_, fun k v => ?_, fun k => ?_⟩
  · obtain ⟨o, hg⟩ := treeGetH_wf f q hw
    exact ⟨o, fun store => ⟨hg store, hg nullStore⟩⟩
  · obtain ⟨h', r', hins, _, _⟩ := treeInsertH_wf f k v hw
    exact ⟨(h', r'), fun store => ⟨hins store, hins nullStore⟩⟩
  · obtain ⟨h', r', hins, _, _⟩ := treeInsertMutH_wf f k v hw
    exact ⟨(h', r'), fun store => ⟨hins store, hins nullStore⟩⟩
  · obtain ⟨h', r', hdel, _, _⟩ := treeDeleteH_wf f k hw
    exact ⟨(h', r'), fun store => ⟨hdel store, hdel nullStore⟩⟩

open AvlHeap in
/-- Witness for C10 at a concrete one-node in-memory tree. -/
theorem C10_in_memory_ops_ignore_store_witness :
    (∀ q, ∃ o, ∀ store : StoreRead Int Int,
      treeGetH 1 store [Cell.memNode ⟨5, 50, none, none, 1, none⟩]
        (some 0) q = .ok o ∧
      treeGetH 1 nullStore [Cell.memNode ⟨5, 50, none, none, 1, none⟩]
        (some 0) q = .ok o) ∧
    (∀ k v, ∃ p, ∀ store : StoreRead Int Int,
      treeInsertH 1 store [Cell.memNode ⟨5, 50, none, none, 1, none⟩]
        (some 0) k v = .ok p ∧
      treeInsertH 1 nullStore [Cell.memNode ⟨5, 50, none, none, 1, none⟩]
        (some 0) k v = .ok p) ∧
    (∀ k v, ∃ p, ∀ store : StoreRead Int Int,
      treeInsertMutH 1 store [Cell.memNode ⟨5, 50, none, none, 1, none⟩]
        (some 0) k v = .ok p ∧
      treeInsertMutH 1 nullStore [Cell.memNode ⟨5, 50, none, none, 1, none⟩]
        (some 0) k v = .ok p) ∧
    (∀ k, ∃ p, ∀ store : StoreRead Int Int,
      treeDeleteH 1 store [Cell.memNode ⟨5, 50, none, none, 1, none⟩]
        (some 0) k = .ok p ∧
      treeDeleteH 1 nullStore [Cell.memNode ⟨5, 50, none, none, 1, none⟩]
        (some 0) k = .ok p) :=
  C10_in_memory_ops_ignore_store 1
    [Cell.memNode ⟨5, 50, none, none, 1, none⟩] (some 0) (by decide)

open AvlHeap in
/-- **C3, confirmed.** Persistence as a frame property over the cell heap:
the persistent `insert`/`delete` (and any sequence of them applied to the
successive results, i.e. to `t'` and its descendants) only allocate fresh
cells and never rewrite an existing one, so the heap only grows
(`applyOps_ext`) and `get` evaluated at the *old* root `r` — a purely
in-memory tree — returns exactly what it returned before the operations
ran. -/
theorem C3_persistence {K V : Type} [LinearOrder K] (f g gq : Nat)
    (store : StoreRead K V) (h : Heap K V) (r : Option Nat)
    (ops : List (Op K V)) (h' : Heap K V) (r' : Option Nat) (q : K)
    (hw : wfRef f h r = true)
    (hrun : applyOps g store ops h r = .ok (h', r')) :
    treeGetH gq store h' r q = treeGetH gq store h r q :=
  treeGetH_stable (applyOps_ext hrun) hw gq q

open AvlHeap in
/-- Witness for C3: a one-node tree `{2 ↦ 20}` at cell 0; applying
`insert(1,10)` then `delete(2)` to the successive versions grows the heap by
two cells and makes the *new* root empty, while `get 2` through the old root
is unchanged (still `some 20`). -/
theorem C3_persistence_witness :
    treeGetH 3 nullStore
      ([Cell.memNode ⟨2, 20, none, none, 1, none⟩,
        Cell.memNode ⟨1, 10, none, none, 1, none⟩,
        Cell.memNode ⟨2, 20, some 1, none, 2, none⟩] : Heap Int Int)
      (some 0) 2
    = treeGetH 3 nullStore
        ([Cell.memNode ⟨2, 20, none, none, 1, none⟩] : Heap Int Int)
        (some 0) 2 :=
  C3_persistence 1 9 3 nullStore
    ([Cell.memNode ⟨2, 20, none, none, 1, none⟩] : Heap Int Int) (some 0)
    [Op.ins 1 10, Op.del 2]
    [Cell.memNode ⟨2, 20, none, none, 1, none⟩,
     Cell.memNode ⟨1, 10, none, none, 1, none⟩,
     Cell.memNode ⟨2, 20, some 1, none, 2, none⟩] none 2
    (by decide) (by decide)

open AvlPure in
/-- **C1, code bug.** The ordered-map law fails on the sequence
`insert(2,20); insert(1,10); insert(3,30); delete(2)` from the empty tree:
before the delete, `get 1 = some 10`; `delete(2)` hits the root's equal-key
arm, which returns `None` and thereby discards the matched node *together
with both subtrees*, leaving the empty tree — so `get 1` afterwards is
`none`, although the most recent operation mentioning key 1 was
`insert(1, 10)`. -/
theorem C1_delete_discards_other_keys :
    treeGet (insertAll (K := Int) (V := Int) .empty
      [(2, 20), (1, 10), (3, 30)]) 1 = some 10 ∧
    treeDelete (insertAll (K := Int) (V := Int) .empty
      [(2, 20), (1, 10), (3, 30)]) 2 = .empty ∧
    treeGet (treeDelete (insertAll (K := Int) (V := Int) .empty
      [(2, 20), (1, 10), (3, 30)]) 2) 1 = none := by
  refine ⟨by decide, by decide, by decide⟩

open AvlPure in
/-- **C2, code bug.** After the public-operation sequence
`insert 8, 4, 10, 2, 6, 9, 11, 1, 5` (which yields a well-formed AVL tree)
followed by `delete 10`, the tree violates the every-node balance/height
invariant: deleting key 10 drops its whole subtree `{9, 10, 11}`, the root's
single rebalancing rotation is insufficient, and the node keyed 8 ends up
with `h(left) = 2, h(right) = 0`.  The root-only `Tree::balanced` check still
returns `true` on the same tree. -/
theorem C2_delete_breaks_balance_invariant :
    wellFormed (insertAll (K := Int) (V := Int) .empty
      [(8, 80), (4, 40), (10, 100), (2, 20), (6, 60), (9, 90), (11, 110),
       (1, 1), (5, 50)]) = true ∧
    wellFormed (treeDelete (insertAll (K := Int) (V := Int) .empty
      [(8, 80), (4, 40), (10, 100), (2, 20), (6, 60), (9, 90), (11, 110),
       (1, 1), (5, 50)]) 10) = false ∧
    treeBalanced (treeDelete (insertAll (K := Int) (V := Int) .empty
      [(8, 80), (4, 40), (10, 100), (2, 20), (6, 60), (9, 90), (11, 110),
       (1, 1), (5, 50)]) 10) = true := by
  refine ⟨by decide, by decide, by decide⟩

open MemStore in
/-- **C6, code bug.** `MemNodeStore::insert` derives the fresh pointer as
`hm.len() + 1`, so pointers are *not* unique across the store's lifetime once
a delete has occurred: after `insert a (ptr 1); insert b (ptr 2); delete 1`,
the next insert again returns pointer 2 — the same pointer an earlier insert
returned — and silently overwrites the live entry for `b` (a read of
pointer 2 now yields `c`). -/
theorem C6_insert_reuses_pointer_after_delete :
    (MemStore.insert ([] : Store Nat) 7).1 = 1 ∧
    (MemStore.insert (MemStore.insert ([] : Store Nat) 7).2 8).1 = 2 ∧
    (MemStore.insert (MemStore.delete
      (MemStore.insert (MemStore.insert ([] : Store Nat) 7).2 8).2 1) 9).1 = 2 ∧
    MemStore.read (MemStore.insert (MemStore.delete
      (MemStore.insert (MemStore.insert ([] : Store Nat) 7).2 8).2 1) 9).2 2
      = .ok 9 := by
  refine ⟨by decide, by decide, by decide, by decide⟩
